import Mathlib

/-!
Verification development for the ducktracker location-sharing broker.

The definitions below are a shallow embedding of the Rust sources:
`src/models.rs`, `src/state.rs`, `src/handlers.rs`, `src/bounded_set.rs`,
`src/box_coords.rs`, `src/db_models.rs`, `src/utils.rs`.

Modelling conventions:
* `f64` timestamps and coordinates are modelled as `ℚ` (exact arithmetic,
  rounding of IEEE doubles is out of scope);
* `HashSet` / `HashMap` become `Finset` or association lists;
* `u32` counters carry an explicit `% 2 ^ 32`;
* Rust's Unicode `char::is_alphanumeric` is an external library function and
  is kept as an explicit parameter `isAlnum : Char → Bool`; Rust's
  `char::is_whitespace` (the Unicode White_Space class) is a fixed finite
  table and is transcribed literally.
-/

namespace Ducktracker

/-- `models::Tag` — `pub struct Tag(pub String)`. -/
structure Tag where
  val : String
deriving DecidableEq

/-- `models::Tags` — a `HashSet<Tag>`. -/
abbrev Tags := Finset Tag

/-- `models::TagVisibility`. -/
inductive TagVisibility where
  | priv
  | pub
deriving DecidableEq

/-- `models::TagAux` — a tag together with its visibility. -/
structure TagAux where
  name : Tag
  visibility : TagVisibility
deriving DecidableEq

/-- `TagAux::is_public`. -/
def TagAux.isPublic (t : TagAux) : Bool :=
  t.visibility = TagVisibility.pub

/-- `models::Location` — lat/lon/acc/spd as `ℚ` in place of `f64`. -/
structure Location where
  lat : ℚ
  lon : ℚ
  acc : Option ℚ
  spd : Option ℚ
  provider : ℕ
  time : ℚ
deriving DecidableEq

/-- `models::FetchId` — `pub struct FetchId(pub u32)`, modelled as `ℕ`. -/
abbrev FetchId := ℕ

/-- `models::SessionId` — the 16-char random token, modelled as `String`. -/
abbrev SessionId := String

/-- `models::Fetch` — the per-session descriptor inside an `AddFetch`. -/
structure Fetch where
  tags : Tags
  maxPoints : ℕ
  maxPointAge : Option ℚ
  name : Option String
deriving DecidableEq

/-- `models::UpdateChange`; the `HashMap`s become association lists. -/
inductive UpdateChange where
  | reset
  | addFetch (fetches : List (FetchId × Fetch)) (pub : Tags)
  | add (points : List (FetchId × List Location))
  | expireFetch (fetchId : FetchId)
deriving DecidableEq

/-- `models::UpdateMeta` — `server_time` (`TimeUsec`) as `ℚ`. -/
structure UpdateMeta where
  serverTime : ℚ
  interval : ℕ
deriving DecidableEq

/-- `models::Update`. -/
structure Update where
  meta : UpdateMeta
  changes : List UpdateChange
deriving DecidableEq

/-- `state::UpdateContext`. -/
structure UpdateContext where
  tags : Tags
  isHeartbeat : Bool
deriving DecidableEq

/-- `UpdateChange::filter_map` (src/models.rs): restrict one change to the
tags a subscriber is subscribed to. -/
def filterMapChange (filterTags : Tags) (ctx : UpdateContext) :
    UpdateChange → Option UpdateChange
  | .reset => some .reset
  | .addFetch fetches pub =>
      some (.addFetch
        (fetches.filterMap fun p =>
          let shared := p.2.tags ∩ filterTags
          if 0 < shared.card then some (p.1, { p.2 with tags := shared })
          else none)
        pub)
  | .add points =>
      some (.add (points.filterMap fun p =>
        let shared := ctx.tags ∩ filterTags
        if 0 < shared.card then some p else none))
  | .expireFetch fid =>
      if 0 < (ctx.tags ∩ filterTags).card then some (.expireFetch fid)
      else none

/-- `Update::filter_map` (src/models.rs): filter every change; keep the update
if the surviving change list is nonempty or the update is a heartbeat. -/
def filterMapUpdate (u : Update) (filterTags : Tags) (ctx : UpdateContext) :
    Option Update :=
  let changes := u.changes.filterMap (filterMapChange filterTags ctx)
  if changes ≠ [] ∨ ctx.isHeartbeat then some { u with changes } else none

/-- `models::Log`. -/
structure Log where
  name : Bool
deriving DecidableEq

/-- `models::Options` — options extracted from a share-id string. -/
structure Options where
  maxPoints : Option ℕ
  maxPointAge : Option ℚ
  noStop : Bool
  log : Option Log
  name : Option String
deriving DecidableEq

/-- `Options::default()`. -/
def Options.default : Options :=
  { maxPoints := none, maxPointAge := none, noStop := false, log := none,
    name := none }

/-- `box_coords::BoxCoords` after `FromStr` normalisation (min/max ordered). -/
structure BoxCoords where
  lat1 : ℚ
  lng1 : ℚ
  lat2 : ℚ
  lng2 : ℚ
deriving DecidableEq

/-- `BoxCoords::wrap_coordinate`: Euclidean wrap of `value` into
`[min, min + (max - min))`; `f64::rem_euclid` for a positive modulus is
`x - r * ⌊x / r⌋`. -/
def wrapCoordinate (value min max : ℚ) : ℚ :=
  let rangeLen := max - min
  if rangeLen = 0 then value
  else (value - min) - rangeLen * ⌊(value - min) / rangeLen⌋ + min

/-- `BoxCoords::wrap_latitude`. -/
def BoxCoords.wrapLatitude (b : BoxCoords) (lat : ℚ) : ℚ :=
  wrapCoordinate lat b.lat1 b.lat2

/-- `BoxCoords::wrap_longitude`. -/
def BoxCoords.wrapLongitude (b : BoxCoords) (lng : ℚ) : ℚ :=
  wrapCoordinate lng b.lng1 b.lng2

/-- `state::Session` — one in-memory tracking session.  The session's
`TagsAux` (`HashSet<TagAux>`) is modelled as a `List TagAux`; the lists the
code constructs are duplicate-free. -/
structure SessionS where
  sessionId : SessionId
  locations : List Location
  expiresAt : ℚ
  fetchId : FetchId
  tags : List TagAux
  maxPoints : ℕ
  maxPointAge : Option ℚ
  addedToExpiration : Bool
  rejectData : Bool
  noStop : Bool
deriving DecidableEq

/-- `TagsAux::as_tags` on a session's tag list. -/
def tagsOfAux (l : List TagAux) : Tags :=
  (l.map TagAux.name).toFinset

/-- `TagsAux::public_tags` on a session's tag list. -/
def publicTagsOfAux (l : List TagAux) : Tags :=
  ((l.filter fun ta => ta.isPublic).map TagAux.name).toFinset

/-- `db_models::DbSession` — a session as stored in persistence. -/
structure DbSession where
  sessionId : SessionId
  expiresAt : ℚ
  fetchId : FetchId
  tags : List TagAux
  maxPoints : ℕ
  maxPointAge : Option ℚ
  rejectData : Bool
  noStop : Bool
deriving DecidableEq

/-- `From<DbSession> for state::Session`: restored sessions come back with an
empty location ring and `added_to_expiration = false` (builder default). -/
def dbToSession (d : DbSession) : SessionS :=
  { sessionId := d.sessionId, locations := [], expiresAt := d.expiresAt,
    fetchId := d.fetchId, tags := d.tags, maxPoints := d.maxPoints,
    maxPointAge := d.maxPointAge, addedToExpiration := false,
    rejectData := d.rejectData, noStop := d.noStop }

/-- Association-list read of the `public_tags: HashMap<Tag, usize>` refcount
map (0 when absent). -/
def tagRefcount : List (Tag × ℕ) → Tag → ℕ
  | [], _ => 0
  | (u, n) :: rest, t => if u = t then n else tagRefcount rest t

/-- `State::add_public_tag`: `*entry.or_insert(0) += 1`. -/
def addPublicTag : List (Tag × ℕ) → Tag → List (Tag × ℕ)
  | [], t => [(t, 1)]
  | (u, n) :: rest, t =>
      if u = t then (u, n + 1) :: rest else (u, n) :: addPublicTag rest t

/-- `State::remove_public_tag`: decrement an occupied entry, dropping it when
it reaches 0; a vacant entry is left untouched. -/
def removePublicTag : List (Tag × ℕ) → Tag → List (Tag × ℕ)
  | [], _ => []
  | (u, n) :: rest, t =>
      if u = t then (if n - 1 = 0 then rest else (u, n - 1) :: rest)
      else (u, n) :: removePublicTag rest t

/-- `State::add_public_tags_for_session`: increment the refcount of every
public tag carried by the session. -/
def addPublicTagsForSession (pt : List (Tag × ℕ)) (s : SessionS) :
    List (Tag × ℕ) :=
  s.tags.foldl (fun pt ta => if ta.isPublic then addPublicTag pt ta.name
                             else pt) pt

/-- `State::remove_public_tags_for_session`. -/
def removePublicTagsForSession (pt : List (Tag × ℕ)) (s : SessionS) :
    List (Tag × ℕ) :=
  s.tags.foldl (fun pt ta => if ta.isPublic then removePublicTag pt ta.name
                             else pt) pt

/-- `HashMap::get` on the session store (association list). -/
def lookupSession : List (SessionId × SessionS) → SessionId → Option SessionS
  | [], _ => none
  | (k, v) :: rest, sid => if k = sid then some v else lookupSession rest sid

/-- `HashMap::insert` on the session store: replace an existing key or
append. -/
def mapInsert : List (SessionId × SessionS) → SessionId → SessionS →
    List (SessionId × SessionS)
  | [], sid, s => [(sid, s)]
  | (k, v) :: rest, sid, s =>
      if k = sid then (k, s) :: rest else (k, v) :: mapInsert rest sid s

/-- `HashMap::remove` on the session store. -/
def mapRemove : List (SessionId × SessionS) → SessionId →
    List (SessionId × SessionS)
  | [], _ => []
  | (k, v) :: rest, sid =>
      if k = sid then rest else (k, v) :: mapRemove rest sid

/-- `state::State` — the fields of the mutable core that the verified claims
touch.  Both expiration heaps are modelled as unordered lists of pushed
entries. -/
structure StateS where
  sessions : List (SessionId × SessionS)
  sessionExpirations : List (ℚ × SessionId)
  dataExpirations : List (ℚ × SessionId)
  publicTags : List (Tag × ℕ)
  defaultTag : Tag
  nextFetchId : ℕ
  maxPoints : ℕ
  defaultPoints : ℕ
  defaultMaxPointAge : Option ℚ
  boxCoords : Option BoxCoords
deriving DecidableEq

/-- `State::public_tags()` — the advertised public tag universe (the key set
of the refcount map). -/
def StateS.publicTagList (st : StateS) : List Tag :=
  st.publicTags.map Prod.fst

/-- Side effects of one state operation: broadcast emissions and the
fire-and-forget persistence calls (recorded by session id). -/
structure Eff where
  emits : List (UpdateContext × Update)
  dbInserts : List SessionId
  dbDeletes : List SessionId
deriving DecidableEq

/-- The empty effect. -/
def noEff : Eff := { emits := [], dbInserts := [], dbDeletes := [] }

/-- `State::generate_fetch_id`: hand out `next_fetch_id` and increment the
`u32` counter. -/
def generateFetchId (st : StateS) : FetchId × StateS :=
  (st.nextFetchId, { st with nextFetchId := (st.nextFetchId + 1) % 2 ^ 32 })

/-- The ids produced by `n` consecutive `generate_fetch_id` calls. -/
def issuedIds (st : StateS) : ℕ → List ℕ
  | 0 => []
  | n + 1 =>
      let (id, st') := generateFetchId st
      id :: issuedIds st' n

/-- `State::remove_session`: drop the session from the store, broadcast an
`ExpireFetch` with the session's tags as context, release its public tags and
delete the persisted record. -/
def removeSession (st : StateS) (sid : SessionId) (nowStamp : ℚ) :
    StateS × Eff :=
  match lookupSession st.sessions sid with
  | none => (st, noEff)
  | some s =>
      let st1 := { st with sessions := mapRemove st.sessions sid }
      let ctx : UpdateContext := { tags := tagsOfAux s.tags,
                                   isHeartbeat := false }
      let upd : Update :=
        { meta := { serverTime := nowStamp, interval := 0 },
          changes := [.expireFetch s.fetchId] }
      let st2 := { st1 with
                   publicTags := removePublicTagsForSession st1.publicTags s }
      (st2, { emits := [(ctx, upd)], dbInserts := [], dbDeletes := [sid] })

/-- `State::request_remove_session`: a `no_stop` session only gets its
`reject_data` flag set; any other session is removed. -/
def requestRemoveSession (st : StateS) (sid : SessionId) (nowStamp : ℚ) :
    StateS × Eff :=
  match lookupSession st.sessions sid with
  | none => (st, noEff)
  | some s =>
      if s.noStop then
        ({ st with sessions :=
             mapInsert st.sessions sid { s with rejectData := true } }, noEff)
      else removeSession st sid nowStamp

/-- `handlers::stop_session` (src/handlers.rs line 113): the stop endpoint
calls `State::remove_session` directly, not `request_remove_session`. -/
def stopSessionHandler (st : StateS) (sid : SessionId) (nowStamp : ℚ) :
    StateS × Eff :=
  removeSession st sid nowStamp

/-- `State::add_fetch`: broadcast an `AddFetch` for a new session.  (The
source builds `models::Fetch` without its `name` field; we take `none`.) -/
def addFetch (fetchId : FetchId) (tagsAux : List TagAux)
    (maxPoints : ℕ) (maxPointAge : Option ℚ) (nowStamp : ℚ) :
    UpdateContext × Update :=
  let publicTags := publicTagsOfAux tagsAux
  let tags := tagsOfAux tagsAux
  let ctx : UpdateContext := { tags := tags, isHeartbeat := false }
  let fetches : List (FetchId × Fetch) :=
    [(fetchId, { tags := tags, maxPoints := maxPoints,
                 maxPointAge := maxPointAge, name := none })]
  (ctx, { meta := { serverTime := nowStamp, interval := 0 },
          changes := [.addFetch fetches publicTags] })

/-- The `Session` record `State::add_session` builds: the fetch id is drawn
from the monotonic counter, an empty parsed tag set is replaced by the
configured default tag with public visibility, `max_points` is clamped into
`[1, state.max_points]`, and `max_point_age` falls back to the configured
default. -/
def newSessionOf (st : StateS) (expiresAt : ℚ) (tagsAux : List TagAux)
    (opts : Options) (sid : SessionId) : SessionS :=
  { sessionId := sid, locations := [], expiresAt := expiresAt,
    fetchId := st.nextFetchId,
    tags := if tagsAux = [] then
        [{ name := st.defaultTag, visibility := TagVisibility.pub }]
      else tagsAux,
    maxPoints :=
      Min.min st.maxPoints
        (Max.max 1 (opts.maxPoints.getD st.defaultPoints)),
    maxPointAge := opts.maxPointAge.orElse (fun _ => st.defaultMaxPointAge),
    addedToExpiration := false, rejectData := false,
    noStop := opts.noStop }

/-- `State::add_session`.  The randomly generated session id is a parameter
(`utils::generate_id` is a random source).  Pushes the session-expiry heap
entry, stores the session, registers its public tags, broadcasts the
`AddFetch` and persists the record. -/
def addSession (st : StateS) (expiresAt : ℚ) (tagsAux : List TagAux)
    (opts : Options) (sid : SessionId) (nowStamp : ℚ) : StateS × Eff :=
  let (fetchId, st1) := generateFetchId st
  let newSession := newSessionOf st expiresAt tagsAux opts sid
  let st2 := { st1 with
               sessionExpirations :=
                 (newSession.expiresAt, newSession.sessionId) ::
                   st1.sessionExpirations,
               sessions := mapInsert st1.sessions sid newSession,
               publicTags :=
                 addPublicTagsForSession st1.publicTags newSession }
  let emit := addFetch fetchId newSession.tags newSession.maxPoints
    newSession.maxPointAge nowStamp
  (st2, { emits := [emit], dbInserts := [sid], dbDeletes := [] })

/-- `State::add_data_expiration`: enroll the oldest point of the session in
the point-expiry heap, once. -/
def addDataExpiration (dataExpirations : List (ℚ × SessionId))
    (s : SessionS) : List (ℚ × SessionId) × SessionS :=
  match s.maxPointAge with
  | none => (dataExpirations, s)
  | some age =>
      if s.addedToExpiration then (dataExpirations, s)
      else
        match s.locations.head? with
        | none => (dataExpirations, s)
        | some front =>
            ((front.time + age, s.sessionId) :: dataExpirations,
             { s with addedToExpiration := true })

/-- `state::Error`. -/
inductive StError where
  | noSuchSession
  | sessionExpired
deriving DecidableEq

/-- `models::PostRequest` — body of `/api/post.php`. -/
structure PostRequest where
  sessionId : SessionId
  provider : Option ℕ
  time : ℚ
  latitude : ℚ
  longitude : ℚ
  accuracy : Option ℚ
  speed : Option ℚ
deriving DecidableEq

/-- The `Location` value `State::add_location` builds from a request after
the optional coordinate wrap (`prv` defaults to 0). -/
def newLocationOf (st : StateS) (d : PostRequest) : Location :=
  { lat := match st.boxCoords with
      | some b => b.wrapLatitude d.latitude
      | none => d.latitude,
    lon := match st.boxCoords with
      | some b => b.wrapLongitude d.longitude
      | none => d.longitude,
    acc := d.accuracy, spd := d.speed,
    provider := d.provider.getD 0, time := d.time }

/-- `State::add_location` (src/state.rs): look up the session, reject absent
or data-rejecting sessions, remove an expired session, otherwise append the
(optionally wrapped) point, evict on overflow, enroll expiration and
broadcast an `Add` update. -/
def addLocation (st : StateS) (d : PostRequest) (now nowStamp : ℚ) :
    StateS × Eff × Option StError :=
  match lookupSession st.sessions d.sessionId with
  | none => (st, noEff, some .noSuchSession)
  | some s =>
      if s.rejectData then (st, noEff, some .noSuchSession)
      else if s.expiresAt < now then
        let (st', eff) := removeSession st d.sessionId nowStamp
        (st', eff, some .sessionExpired)
      else
        let newLocation := newLocationOf st d
        let locs := s.locations ++ [newLocation]
        let evict := decide (s.maxPoints < locs.length)
        let s1 := { s with
                    locations := if evict then locs.tail else locs,
                    addedToExpiration :=
                      if evict then false else s.addedToExpiration }
        let (dataExp, s2) := addDataExpiration st.dataExpirations s1
        let st' := { st with
                     sessions := mapInsert st.sessions d.sessionId s2,
                     dataExpirations := dataExp }
        let ctx : UpdateContext := { tags := tagsOfAux s.tags,
                                     isHeartbeat := false }
        let upd : Update :=
          { meta := { serverTime := nowStamp, interval := 0 },
            changes := [.add [(s.fetchId, [newLocation])]] }
        (st', { emits := [(ctx, upd)], dbInserts := [], dbDeletes := [] },
         none)

/-- `handlers::post_location` — status code chosen for each
`State::add_location` outcome. -/
def postLocationStatus : Option StError → ℕ
  | some .noSuchSession => 404
  | some .sessionExpired => 410
  | none => 200

/-- `State::expire_data`: pop points older than `now − max_point_age` from
the front of the ring (clearing `added_to_expiration` at each pop), then
re-enroll the new front. -/
def expireData (st : StateS) (sid : SessionId) (now : ℚ) : StateS :=
  match lookupSession st.sessions sid with
  | none => st
  | some s =>
      match s.maxPointAge with
      | none => st
      | some age =>
          let deadline := now - age
          let kept := s.locations.dropWhile fun l => l.time < deadline
          let s1 := { s with
                      locations := kept,
                      addedToExpiration :=
                        if kept.length = s.locations.length then
                          s.addedToExpiration
                        else false }
          let (dataExp, s2) := addDataExpiration st.dataExpirations s1
          { st with sessions := mapInsert st.sessions sid s2,
                    dataExpirations := dataExp }

/-- `State::load_state`'s loop body: re-add each persisted session that is
still live (registering its public tags, expiration entry and fetch-id
highwater mark); delete expired ones from persistence. -/
def loadLoop (now : ℚ) : List DbSession → StateS → ℕ →
    StateS × ℕ × List SessionId
  | [], st, hi => (st, hi, [])
  | d :: rest, st, hi =>
      if now < d.expiresAt then
        let s := dbToSession d
        let st1 := { st with
                     publicTags := addPublicTagsForSession st.publicTags s,
                     sessionExpirations :=
                       (s.expiresAt, s.sessionId) :: st.sessionExpirations,
                     sessions := mapInsert st.sessions s.sessionId s }
        let hi1 := if hi < d.fetchId then d.fetchId else hi
        loadLoop now rest st1 hi1
      else
        let (stF, hiF, dels) := loadLoop now rest st hi
        (stF, hiF, d.sessionId :: dels)

/-- `State::load_state`: run the loop and set `next_fetch_id` to the highest
loaded fetch id plus one. -/
def loadStateF (now : ℚ) (st : StateS) (db : List DbSession) :
    StateS × List SessionId :=
  let (st1, hi, dels) := loadLoop now db st 0
  ({ st1 with nextFetchId := hi + 1 }, dels)

/-- Configuration handed to `State::new`. -/
structure Config where
  defaultTag : Tag
  maxPoints : ℕ
  defaultPoints : ℕ
  defaultMaxPointAge : Option ℚ
  boxCoords : Option BoxCoords
deriving DecidableEq

/-- The empty state before `State::new` registers the default tag. -/
def baseState (cfg : Config) : StateS :=
  { sessions := [], sessionExpirations := [], dataExpirations := [],
    publicTags := [], defaultTag := cfg.defaultTag, nextFetchId := 0,
    maxPoints := cfg.maxPoints, defaultPoints := cfg.defaultPoints,
    defaultMaxPointAge := cfg.defaultMaxPointAge,
    boxCoords := cfg.boxCoords }

/-- `State::new`: build the empty state, register the default tag once in the
public-tag refcounts, then `load_state` from persistence. -/
def initState (cfg : Config) (db : List DbSession) (now : ℚ) : StateS :=
  (loadStateF now
    { baseState cfg with publicTags := addPublicTag [] cfg.defaultTag }
    db).1

/-- The states the mutable core can reach: the startup state followed by any
interleaving of the handler operations and the expiry workers.  `create`
carries the freshness of the random session id and the duplicate-freedom of
the parsed tag set as side conditions (`utils::generate_id` collisions are
assumed away by the source, and `HashSet<TagAux>` holds no duplicates). -/
inductive Reachable (cfg : Config) : StateS → Prop
  | init (db : List DbSession) (now : ℚ)
      (hids : (db.map DbSession.sessionId).Nodup)
      (htags : ∀ d ∈ db, d.tags.Nodup) :
      Reachable cfg (initState cfg db now)
  | create {st} (expiresAt : ℚ) (tagsAux : List TagAux) (opts : Options)
      (sid : SessionId) (nowStamp : ℚ)
      (hfresh : lookupSession st.sessions sid = none)
      (htags : tagsAux.Nodup) :
      Reachable cfg st →
      Reachable cfg (addSession st expiresAt tagsAux opts sid nowStamp).1
  | stop {st} (sid : SessionId) (nowStamp : ℚ) :
      Reachable cfg st →
      Reachable cfg (stopSessionHandler st sid nowStamp).1
  | reqStop {st} (sid : SessionId) (nowStamp : ℚ) :
      Reachable cfg st →
      Reachable cfg (requestRemoveSession st sid nowStamp).1
  | post {st} (d : PostRequest) (now nowStamp : ℚ) :
      Reachable cfg st →
      Reachable cfg (addLocation st d now nowStamp).1
  | expireSession {st} (sid : SessionId) (nowStamp : ℚ) :
      Reachable cfg st →
      Reachable cfg (removeSession st sid nowStamp).1
  | expDataStep {st} (sid : SessionId) (now : ℚ) :
      Reachable cfg st →
      Reachable cfg (expireData st sid now)

/-- Number of live sessions carrying tag `t` with public visibility. -/
def liveCount (st : StateS) (t : Tag) : ℕ :=
  (st.sessions.filter fun p =>
    decide ((⟨t, TagVisibility.pub⟩ : TagAux) ∈ p.2.tags)).length

/-- `State::public_tags()` — the advertised key list — together with the
bookkeeping the reachable states maintain: every stored refcount is
positive, keys are unique, session ids are unique, every stored session's
tag set is duplicate-free, and the refcount of every tag equals the number
of live sessions carrying it publicly, plus one standing reference for the
configured default tag (registered once by `State::new`). -/
def PubInv (sessions : List (SessionId × SessionS)) (pt : List (Tag × ℕ))
    (dflt : Tag) : Prop :=
  (∀ p ∈ pt, 0 < p.2) ∧
  (pt.map Prod.fst).Nodup ∧
  (sessions.map Prod.fst).Nodup ∧
  (∀ p ∈ sessions, p.2.tags.Nodup) ∧
  ∀ T : Tag, tagRefcount pt T =
    (sessions.filter fun p =>
      decide ((⟨T, TagVisibility.pub⟩ : TagAux) ∈ p.2.tags)).length +
    (if T = dflt then 1 else 0)

/-- `state::UpdateChangeWithContext`. -/
structure UpdateChangeWithContext where
  change : UpdateChange
  context : UpdateContext
deriving DecidableEq

/-- `state::UpdateWithContext`. -/
structure UpdateWithContext where
  meta : UpdateMeta
  updates : List UpdateChangeWithContext
deriving DecidableEq

/-- `UpdateWithContext::ingest`: append the other update's change list. -/
def UpdateWithContext.ingest (a b : UpdateWithContext) : UpdateWithContext :=
  { a with updates := a.updates ++ b.updates }

/-- One item of the broadcast stream a subscriber's coalescer consumes:
either an update or a `Lagged(n)` error. -/
inductive CoalEvent where
  | ok (e : UpdateWithContext)
  | lagged (n : ℕ)
deriving DecidableEq

/-- The coalescer's loop state in `handlers::coalesce_stream`. -/
structure CoalState where
  tPrev : Option ℚ
  accum : Option UpdateWithContext
  first : Bool
deriving DecidableEq

/-- The coalescer's initial state. -/
def coalInit : CoalState := { tPrev := none, accum := none, first := true }

/-- One iteration of the `coalesce_stream` loop.  `now` is the wall-clock
value `SystemTime::now()` would produce if this iteration stamps and yields
an update.  Returns the new loop state and the items yielded. -/
def coalStep (W now : ℚ) (st : CoalState) : CoalEvent →
    CoalState × List CoalEvent
  | .ok e =>
      let doAccumulate := match st.tPrev with
        | some tp => decide (e.meta.serverTime - tp < W)
        | none => true
      let accum1 := if st.first then some e else st.accum
      if !st.first && doAccumulate then
        match st.accum with
        | none =>
            ({ tPrev := some e.meta.serverTime, accum := some e,
               first := false }, [])
        | some prevAccum =>
            ({ st with accum := some (prevAccum.ingest e), first := false },
             [])
      else
        let outs := match accum1 with
          | some prevAccum =>
              [CoalEvent.ok
                { prevAccum with
                  meta := { prevAccum.meta with serverTime := now } }]
          | none => []
        ({ tPrev := some e.meta.serverTime, accum := some e,
           first := false }, outs)
  | .lagged n =>
      match st.accum with
      | some prevAccum =>
          ({ st with accum := none, tPrev := none },
           [CoalEvent.ok
              { prevAccum with
                meta := { prevAccum.meta with serverTime := now } },
            CoalEvent.lagged n])
      | none => (st, [CoalEvent.lagged n])

/-- Run the coalescer over a finite prefix of the incoming stream; each item
is paired with the wall-clock value at its arrival. -/
def coalRun (W : ℚ) : CoalState → List (ℚ × CoalEvent) →
    CoalState × List CoalEvent
  | st, [] => (st, [])
  | st, (now, ev) :: rest =>
      let (st1, outs) := coalStep W now st ev
      let (stF, outsR) := coalRun W st1 rest
      (stF, outs ++ outsR)

/-- Wrap an error-free input prefix as coalescer items. -/
def okInputs (l : List (ℚ × UpdateWithContext)) : List (ℚ × CoalEvent) :=
  l.map fun p => (p.1, .ok p.2)

/-- `bounded_set::BoundedSet` — fixed-capacity ring set of issued tokens. -/
structure BoundedSet (α : Type) [DecidableEq α] where
  set : Finset α
  insertionOrder : List α
  maxSize : ℕ
  ringIndex : ℕ

/-- `BoundedSet::new`. -/
def BoundedSet.new (α : Type) [DecidableEq α] (maxSize : ℕ) : BoundedSet α :=
  { set := ∅, insertionOrder := [], maxSize := maxSize, ringIndex := 0 }

/-- `BoundedSet::insert`: a present element is left completely untouched; a
new element is added, evicting the element at `ring_index` (the oldest) when
the ring is full.  (With `max_size = 0` the source indexes out of bounds and
panics; that dead branch returns the set unchanged here.) -/
def BoundedSet.insert {α : Type} [DecidableEq α] (s : BoundedSet α) (v : α) :
    BoundedSet α :=
  if v ∈ s.set then s
  else if s.insertionOrder.length = s.maxSize then
    match s.insertionOrder.get? s.ringIndex with
    | none => s
    | some oldest =>
        { set := (Insert.insert v s.set).erase oldest,
          insertionOrder := s.insertionOrder.set s.ringIndex v,
          maxSize := s.maxSize,
          ringIndex := (s.ringIndex + 1) % s.maxSize }
  else
    { s with set := Insert.insert v s.set,
             insertionOrder := s.insertionOrder ++ [v] }

/-- `BoundedSet::contains`. -/
def BoundedSet.contains {α : Type} [DecidableEq α] (s : BoundedSet α)
    (v : α) : Bool :=
  v ∈ s.set

/-- Insert a sequence of elements in order. -/
def BoundedSet.insertAll {α : Type} [DecidableEq α] (s : BoundedSet α)
    (xs : List α) : BoundedSet α :=
  xs.foldl BoundedSet.insert s

/-- Rust's `char::is_whitespace`: the Unicode `White_Space` class, a fixed
finite table. -/
def rustIsWhitespace (c : Char) : Bool :=
  (0x09 ≤ c.toNat && c.toNat ≤ 0x0D) || c.toNat = 0x20 || c.toNat = 0x85 ||
  c.toNat = 0xA0 || c.toNat = 0x1680 ||
  (0x2000 ≤ c.toNat && c.toNat ≤ 0x200A) || c.toNat = 0x2028 ||
  c.toNat = 0x2029 || c.toNat = 0x202F || c.toNat = 0x205F ||
  c.toNat = 0x3000

/-- Rust's `str::trim` (drops `White_Space` from both ends). -/
def rustTrim (l : List Char) : List Char :=
  ((l.dropWhile rustIsWhitespace).reverse.dropWhile rustIsWhitespace).reverse

/-- The whitespace filter applied to a share-id string before splitting
(`.chars().filter(|c| !c.is_whitespace())`). -/
def stripWs (l : List Char) : List Char :=
  l.filter fun c => !rustIsWhitespace c

/-- Rust's `str::split(sep)` on characters; the empty string yields one empty
field. -/
def splitOnChar (sep : Char) : List Char → List (List Char)
  | [] => [[]]
  | c :: rest =>
      if c = sep then [] :: splitOnChar sep rest
      else
        match splitOnChar sep rest with
        | [] => [[c]]
        | f :: fs => (c :: f) :: fs

/-- Rust's `str::split_once(sep)`: split at the first occurrence. -/
def splitOnceChar (sep : Char) : List Char → Option (List Char × List Char)
  | [] => none
  | c :: rest =>
      if c = sep then some ([], rest)
      else (splitOnceChar sep rest).map fun p => (c :: p.1, p.2)

/-- `Vec::join(",")` over character lists. -/
def joinSep (sep : Char) : List (List Char) → List Char
  | [] => []
  | [f] => f
  | f :: fs => f ++ sep :: joinSep sep fs

/-- `Tag::new` (src/models.rs): trim, reject the empty result, and accept
only Unicode alphanumerics, `-` and `_`.  The Unicode alphanumeric table of
`char::is_alphanumeric` is the parameter `isAlnum`. -/
def tagNew (isAlnum : Char → Bool) (l : List Char) : Option (List Char) :=
  let trimmed := rustTrim l
  if trimmed.isEmpty then none
  else if trimmed.all (fun c => isAlnum c || c = '-' || c = '_') then
    some trimmed
  else none

/-- Digits to a natural number. -/
def digitsToNat (l : List Char) : ℕ :=
  l.foldl (fun n c => n * 10 + (c.toNat - 48)) 0

/-- Rust's `usize::from_str` (used for the `points` keyword): an optional
leading `+` followed by one or more ASCII digits. -/
def parseUsize (l : List Char) : Option ℕ :=
  let l := match l with
    | '+' :: rest => rest
    | _ => l
  if l.isEmpty then none
  else if l.all Char.isDigit then some (digitsToNat l) else none

/-- Unit factor of a duration group. -/
def unitSecs : Char → ℚ
  | 'h' => 3600
  | 'm' => 60
  | _ => 1

/-- Fuel-indexed group scanner behind `parseTimedelta`. -/
def parseTdGo : ℕ → List Char → Option (List (ℕ × Char))
  | _, [] => some []
  | 0, _ :: _ => none
  | fuel + 1, l =>
      let digits := l.takeWhile Char.isDigit
      let rest := l.dropWhile Char.isDigit
      if digits.isEmpty then none
      else
        match rest with
        | [] => none
        | u :: rest' =>
            if u = 'h' || u = 'm' || u = 's' then
              (parseTdGo fuel rest').map fun gs => (digitsToNat digits, u) :: gs
            else none

/-- Modelled from the spec: `utils::parse_timedelta` is not among the
sources under src/ (only its callers are); the spec describes it as parsing a
human duration such as `10s` or `2h30m`.  Result in seconds. -/
def parseTimedelta (l : List Char) : Option ℚ :=
  match parseTdGo l.length l with
  | none => none
  | some [] => none
  | some gs => some (gs.foldl (fun acc g => acc + (g.1 : ℚ) * unitSecs g.2) 0)

/-- `HashSet<TagAux>::insert` on the list model: no-op when present. -/
def insertTagAux (l : List TagAux) (t : TagAux) : List TagAux :=
  if t ∈ l then l else l ++ [t]

/-- The field loop of `TagsAux::parse_share_id`: each field is either empty
(skipped), `keyword:value`, or a bare token. -/
def parseFields (isAlnum : Char → Bool) :
    List (List Char) → List TagAux → Options →
    Option (List TagAux × Options)
  | [], tags, opts => some (tags, opts)
  | f :: fs, tags, opts =>
      if f.isEmpty then parseFields isAlnum fs tags opts
      else
        match splitOnceChar ':' f with
        | some (kw, v) =>
            if kw = "pub".toList || kw = "public".toList then
              match tagNew isAlnum v with
              | none => none
              | some nm =>
                  parseFields isAlnum fs
                    (insertTagAux tags ⟨⟨⟨nm⟩⟩, .pub⟩) opts
            else if kw = "priv".toList || kw = "private".toList then
              match tagNew isAlnum v with
              | none => none
              | some nm =>
                  parseFields isAlnum fs
                    (insertTagAux tags ⟨⟨⟨nm⟩⟩, .priv⟩) opts
            else if kw = "points".toList then
              match parseUsize v with
              | none => none
              | some n =>
                  parseFields isAlnum fs tags { opts with maxPoints := some n }
            else if kw = "expire".toList then
              match parseTimedelta v with
              | none => none
              | some q =>
                  parseFields isAlnum fs tags
                    { opts with maxPointAge := some q }
            else if kw = "name".toList then
              parseFields isAlnum fs tags { opts with name := some ⟨v⟩ }
            else if kw = "log".toList then
              if v = "name".toList then
                parseFields isAlnum fs tags { opts with log := some ⟨true⟩ }
              else none
            else none
        | none =>
            if f = "nostop".toList then
              parseFields isAlnum fs tags { opts with noStop := true }
            else if f = "log".toList then
              parseFields isAlnum fs tags { opts with log := some ⟨false⟩ }
            else
              match tagNew isAlnum f with
              | none => none
              | some nm =>
                  parseFields isAlnum fs
                    (insertTagAux tags ⟨⟨⟨nm⟩⟩, .priv⟩) opts

/-- `TagsAux::parse_share_id`.  An absent share id synthesizes one private
tag from a freshly generated id (`genId`, the random source's output); a
present one is stripped of whitespace, split on commas and folded through
`parseFields`. -/
def parseShareId (isAlnum : Char → Bool) (shareId : Option String)
    (genId : String) : Option (List TagAux × Options) :=
  match shareId with
  | none =>
      (tagNew isAlnum genId.data).map fun nm =>
        ([⟨⟨⟨nm⟩⟩, .priv⟩], Options.default)
  | some s =>
      parseFields isAlnum (splitOnChar ',' (stripWs s.data)) []
        Options.default

/-- What `Tag::new` guarantees about every tag the share-id parser stores
when the input has been stripped of whitespace: the name is nonempty, every
character passes the tag character check, and none is whitespace. -/
def ValidTagAux (isAlnum : Char → Bool) (ta : TagAux) : Prop :=
  ta.name.val.data ≠ [] ∧
  (∀ c ∈ ta.name.val.data, (isAlnum c || c = '-' || c = '_') = true) ∧
  (∀ c ∈ ta.name.val.data, rustIsWhitespace c = false)

/-- `impl Display for TagAux`: `pub:<name>` or `priv:<name>`. -/
def displayTagAux (t : TagAux) : List Char :=
  (match t.visibility with
   | .pub => "pub".toList
   | .priv => "priv".toList) ++ ':' :: t.name.val.data

/-- The canonical share id built in `handlers::create_session`: the parsed
tags rendered with `Display` and joined with commas (in the hash set's
iteration order). -/
def canonicalShareId (l : List TagAux) : String :=
  ⟨joinSep ',' (l.map displayTagAux)⟩

/-- `impl FromStr for Tag` (src/models.rs): always succeeds, wrapping the
string verbatim. -/
def tagFromStr (s : String) : Except Unit Tag :=
  .ok ⟨s⟩

/-- `Deserialize for CommaSeparatedVec<Tag>` (src/utils.rs): the empty
string is the empty list; otherwise split on commas, trim each piece and run
`FromStr`. -/
def commaSeparatedTags (s : String) : Option (List Tag) :=
  if s = "" then some []
  else
    (splitOnChar ',' s.data).mapM fun f =>
      match tagFromStr ⟨rustTrim f⟩ with
      | .ok t => some t
      | .error _ => none

/-- Decidable check that every `AddFetch` entry of an update keeps its tags
inside the update context's tag set — true of every update the broadcaster
emits (`State::add_fetch` uses the session's full tag set for both). -/
def addFetchTagsOk (u : Update) (ctx : UpdateContext) : Bool :=
  u.changes.all fun c =>
    match c with
    | .addFetch fs _ => fs.all fun p => decide (p.2.tags ⊆ ctx.tags)
    | _ => true

/-- Invariant tying a `BoundedSet` to the sequence of distinct elements
inserted so far: the members are the last `min (length, N)` inserted
elements, laid out in the ring as `w₂ ++ w₁` where `w₁ ++ w₂` is that window
oldest-first and `ring_index` points at the oldest slot. -/
def BSetInv {α : Type} [DecidableEq α] (N : ℕ) (processed : List α)
    (s : BoundedSet α) : Prop :=
  s.maxSize = N ∧
  s.insertionOrder.length = Min.min processed.length N ∧
  s.insertionOrder.Nodup ∧
  s.set = s.insertionOrder.toFinset ∧
  (∀ x ∈ s.insertionOrder, x ∈ processed) ∧
  ∃ w₁ w₂, processed.drop (processed.length - N) = w₁ ++ w₂ ∧
    s.insertionOrder = w₂ ++ w₁ ∧
    s.ringIndex = (if w₁ = [] then 0 else w₂.length) ∧
    (w₂ ≠ [] → s.insertionOrder.length = N)

/-- Largest fetch id among the persisted sessions still live at `now` (0
when there are none) — the highwater mark `State::load_state` actually
computes. -/
def maxLiveFetchId (now : ℚ) (db : List DbSession) : ℕ :=
  (db.filter fun d => decide (now < d.expiresAt)).foldl
    (fun h d => Max.max h d.fetchId) 0

/-- A sample broadcast event (server time 5, one `ExpireFetch 1` change),
fixture for concrete evaluations. -/
def exUwc : UpdateWithContext :=
  { meta := { serverTime := 5, interval := 0 },
    updates := [{ change := .expireFetch 1,
                  context := { tags := ∅, isHeartbeat := false } }] }

/-- A second sample broadcast event (server time 50, one `ExpireFetch 2`
change), fixture for concrete evaluations. -/
def exUwc2 : UpdateWithContext :=
  { meta := { serverTime := 50, interval := 0 },
    updates := [{ change := .expireFetch 2,
                  context := { tags := ∅, isHeartbeat := false } }] }

/-- A sample configuration, fixture for concrete evaluations. -/
def exCfg : Config :=
  { defaultTag := ⟨"duck"⟩, maxPoints := 1000, defaultPoints := 200,
    defaultMaxPointAge := none, boxCoords := none }

/-- A sample persistence content: session `"a"` already expired at load time
(`expires_at = 0`) but carrying the largest fetch id, session `"b"` still
live. -/
def exDb : List DbSession :=
  [{ sessionId := "a", expiresAt := 0, fetchId := 10, tags := [],
     maxPoints := 5, maxPointAge := none, rejectData := false,
     noStop := false },
   { sessionId := "b", expiresAt := 10, fetchId := 5, tags := [],
     maxPoints := 5, maxPointAge := none, rejectData := false,
     noStop := false }]

/-- A sample `no_stop` session, fixture for concrete evaluations. -/
def exSessionNoStop : SessionS :=
  { sessionId := "S", locations := [], expiresAt := 100, fetchId := 7,
    tags := [⟨⟨"alpha"⟩, .pub⟩], maxPoints := 3, maxPointAge := none,
    addedToExpiration := false, rejectData := false, noStop := true }

/-- A sample state holding `exSessionNoStop`, fixture for concrete
evaluations. -/
def exStateNoStop : StateS :=
  { sessions := [("S", exSessionNoStop)], sessionExpirations := [(100, "S")],
    dataExpirations := [], publicTags := [(⟨"duck"⟩, 1), (⟨"alpha"⟩, 1)],
    defaultTag := ⟨"duck"⟩, nextFetchId := 8, maxPoints := 1000,
    defaultPoints := 200, defaultMaxPointAge := none, boxCoords := none }

/-! ## Basic lemmas about the embedding -/

theorem lookup_mapInsert_self (l : List (SessionId × SessionS))
    (k : SessionId) (v : SessionS) :
    lookupSession (mapInsert l k v) k = some v := by
  induction l with
  | nil => simp [mapInsert, lookupSession]
  | cons p rest ih =>
      by_cases h : p.1 = k
      · simp [mapInsert, lookupSession, h]
      · simp [mapInsert, lookupSession, h, ih]

theorem lookup_eq_none_of_not_mem_keys (l : List (SessionId × SessionS))
    (k : SessionId) (h : k ∉ l.map Prod.fst) :
    lookupSession l k = none := by
  induction l with
  | nil => rfl
  | cons p rest ih =>
      simp only [List.map_cons, List.mem_cons, not_or] at h
      rw [lookupSession, if_neg fun hpk => h.1 hpk.symm]
      exact ih h.2

theorem lookup_mapRemove_self (l : List (SessionId × SessionS))
    (k : SessionId) (hnd : (l.map Prod.fst).Nodup) :
    lookupSession (mapRemove l k) k = none := by
  induction l with
  | nil => simp [mapRemove, lookupSession]
  | cons p rest ih =>
      simp only [List.map_cons, List.nodup_cons] at hnd
      by_cases h : p.1 = k
      · subst h
        rw [mapRemove, if_pos rfl]
        exact lookup_eq_none_of_not_mem_keys rest p.1 hnd.1
      · simp [mapRemove, lookupSession, h, ih hnd.2]

theorem mapM_option_some {α β : Type} (g : α → β) (l : List α) :
    (l.mapM fun x => some (g x)) = some (l.map g) := by
  induction l with
  | nil => rfl
  | cons a l ih => rw [List.mapM_cons, ih]; rfl

/-! ## C10: no validation of subscriber-supplied tags -/

/-- C10: parsing any string as a `Tag` via `FromStr` succeeds and returns the
string verbatim; `CommaSeparatedVec` deserialization therefore also never
fails; and `Tag::new` rejects strings that are empty after trimming or whose
trimmed form contains a character that is neither alphanumeric (under any
alphanumeric table) nor `-` nor `_` — strings that `FromStr` still accepts
verbatim. -/
theorem stream_tags_unvalidated :
    (∀ s : String, tagFromStr s = .ok ⟨s⟩) ∧
    (∀ s : String, ∃ ts, commaSeparatedTags s = some ts) ∧
    (∀ isAlnum : Char → Bool, ∀ s : String, rustTrim s.data = [] →
      tagNew isAlnum s.data = none) ∧
    (∀ isAlnum : Char → Bool, ∀ s : String, ∀ c ∈ rustTrim s.data,
      isAlnum c = false → c ≠ '-' → c ≠ '_' →
      tagNew isAlnum s.data = none) := by
  refine ⟨fun _ => rfl, fun s => ?_, fun isAlnum s h => ?_, ?_⟩
  · by_cases h : s = ""
    · exact ⟨[], by simp [commaSeparatedTags, h]⟩
    · refine ⟨(splitOnChar ',' s.data).map fun f => ⟨⟨rustTrim f⟩⟩, ?_⟩
      simp only [commaSeparatedTags, h, if_false]
      exact mapM_option_some (fun f => (⟨⟨rustTrim f⟩⟩ : Tag)) _
  · simp [tagNew, h]
  · intro isAlnum s c hc hA hd hu
    have hne : (rustTrim s.data).isEmpty = false := by
      cases h : rustTrim s.data with
      | nil => rw [h] at hc; cases hc
      | cons a l => simp
    have hall : (rustTrim s.data).all
        (fun c => isAlnum c || c = '-' || c = '_') = false := by
      rw [List.all_eq_false]
      exact ⟨c, hc, by simp [hA, hd, hu]⟩
    simp [tagNew, hne, hall]

/-- C10 witness: `"a b"` is rejected by `Tag::new` for any alphanumeric
table, yet accepted verbatim by the stream endpoint's `FromStr`. -/
theorem stream_tags_unvalidated_witness :
    tagFromStr "a b" = .ok ⟨"a b"⟩ ∧
    tagNew (fun c => c.isAlphanum) "a b".data = none :=
  ⟨stream_tags_unvalidated.1 "a b",
   stream_tags_unvalidated.2.2.2 (fun c => c.isAlphanum) "a b" ' '
     (by decide) (by decide) (by decide) (by decide)⟩

/-! ## C9: `add_location` leaves the state untouched on `NoSuchSession` -/

/-- C9: whenever `State::add_location` answers `NoSuchSession` (session
absent or `reject_data` set) the state is returned unchanged — no location
appended, no heap push — and nothing is emitted or persisted. -/
theorem addLocation_noSuchSession_pure (st : StateS) (d : PostRequest)
    (now nowStamp : ℚ)
    (h : (addLocation st d now nowStamp).2.2 = some .noSuchSession) :
    (addLocation st d now nowStamp).1 = st ∧
    (addLocation st d now nowStamp).2.1 = noEff := by
  unfold addLocation at h ⊢
  cases hl : lookupSession st.sessions d.sessionId with
  | none => exact ⟨rfl, rfl⟩
  | some s =>
      rw [hl] at h
      by_cases hr : s.rejectData
      · constructor <;> simp [hl, hr]
      · by_cases he : s.expiresAt < now
        · exfalso
          rcases hrm : removeSession st d.sessionId nowStamp with ⟨st', eff⟩
          rw [hrm] at h
          simp [hr, he] at h
        · exfalso
          simp [hr, he] at h

/-- C9 witness: a post against an empty session store. -/
theorem addLocation_noSuchSession_pure_witness :
    (addLocation (baseState ⟨⟨"duck"⟩, 1000, 200, none, none⟩)
        ⟨"S", none, 0, 0, 0, none, none⟩ 0 0).1 =
      baseState ⟨⟨"duck"⟩, 1000, 200, none, none⟩ ∧
    (addLocation (baseState ⟨⟨"duck"⟩, 1000, 200, none, none⟩)
        ⟨"S", none, 0, 0, 0, none, none⟩ 0 0).2.1 = noEff :=
  addLocation_noSuchSession_pure _ _ _ _ (by decide)

/-! ## C2: stopping a `no_stop` session -/

/-- C2: the stop endpoint (src/handlers.rs line 113) calls
`State::remove_session` directly, bypassing the `no_stop` check of
`State::request_remove_session`: a `no_stop` session is removed from the
store, an `ExpireFetch` is broadcast, the public-tag refcount is decremented
and the persisted record is deleted — whereas `request_remove_session` on
the same state would only set `reject_data`, exactly as the claim states. -/
theorem stop_noStop_session_removed :
    (stopSessionHandler exStateNoStop "S" 50).1.sessions = [] ∧
    (stopSessionHandler exStateNoStop "S" 50).2.emits =
      [(⟨{⟨"alpha"⟩}, false⟩, ⟨⟨50, 0⟩, [.expireFetch 7]⟩)] ∧
    (stopSessionHandler exStateNoStop "S" 50).2.dbDeletes = ["S"] ∧
    (stopSessionHandler exStateNoStop "S" 50).1.publicTags =
      [(⟨"duck"⟩, 1)] ∧
    lookupSession (requestRemoveSession exStateNoStop "S" 50).1.sessions
        "S" = some { exSessionNoStop with rejectData := true } := by
  decide

/-! ## C1: disjoint non-heartbeat updates and the subscriber filter -/

/-- C1 counterexample: a live non-heartbeat `Add` update whose context tags
are disjoint from the subscriber's tags is *not* dropped by
`Update::filter_map`; the subscriber still receives an update carrying an
(emptied) `Add` change. -/
theorem disjoint_update_not_dropped :
    (({ tags := {⟨"a"⟩}, isHeartbeat := false } : UpdateContext).isHeartbeat
        = false) ∧
    ({⟨"a"⟩} : Tags) ∩ ({⟨"b"⟩} : Tags) = ∅ ∧
    filterMapUpdate ⟨⟨0, 0⟩, [.add [(1, [])]]⟩ {⟨"b"⟩}
        { tags := {⟨"a"⟩}, isHeartbeat := false } =
      some ⟨⟨0, 0⟩, [.add []]⟩ := by
  decide

/-- C1 (amended): for a live non-heartbeat update whose context tags are
disjoint from the subscriber's tags, and whose `AddFetch` entries keep their
tags inside the context tags (as the broadcaster guarantees), anything
`Update::filter_map` lets through is content-free: only `Reset`, an
`AddFetch` with no fetch entries, or an `Add` with no points; in particular
no `ExpireFetch`, no fetch entry and no location point reaches the
subscriber. -/
theorem disjoint_update_content_free (u : Update) (fT : Tags)
    (ctx : UpdateContext) (hdisj : ctx.tags ∩ fT = ∅)
    (hsub : addFetchTagsOk u ctx = true) (u' : Update)
    (h : filterMapUpdate u fT ctx = some u') :
    ∀ ch ∈ u'.changes,
      ch = .reset ∨ (∃ pub, ch = .addFetch [] pub) ∨ ch = .add [] := by
  have hch : u'.changes = u.changes.filterMap (filterMapChange fT ctx) := by
    simp only [filterMapUpdate] at h
    split at h
    · cases h; rfl
    · cases h
  intro ch hmem
  rw [hch] at hmem
  rcases List.mem_filterMap.mp hmem with ⟨c, hc, hfc⟩
  simp only [addFetchTagsOk, List.all_eq_true] at hsub
  cases c with
  | reset =>
      left
      simpa [filterMapChange] using hfc.symm
  | addFetch fs pub =>
      right; left
      refine ⟨pub, ?_⟩
      have hempty : (fs.filterMap fun p =>
          let shared := p.2.tags ∩ fT
          if 0 < shared.card then some (p.1, { p.2 with tags := shared })
          else none) = [] := by
        rw [List.filterMap_eq_nil_iff]
        intro p hp
        have hps : p.2.tags ⊆ ctx.tags := by
          have := hsub _ hc
          simp only [List.all_eq_true] at this
          simpa using this p hp
        have : p.2.tags ∩ fT = ∅ :=
          Finset.subset_empty.mp
            (hdisj ▸ Finset.inter_subset_inter_right hps)
        simp [this]
      simp only [filterMapChange] at hfc
      rw [hempty] at hfc
      cases hfc
      rfl
  | add points =>
      right; right
      have hempty : (points.filterMap fun p =>
          let shared := ctx.tags ∩ fT
          if 0 < shared.card then some p else none) = [] := by
        rw [List.filterMap_eq_nil_iff]
        intro p _
        simp [hdisj]
      simp only [filterMapChange] at hfc
      rw [hempty] at hfc
      cases hfc
      rfl
  | expireFetch fid =>
      exfalso
      simp [filterMapChange, hdisj] at hfc

/-- C6: outcomes of `State::add_location` with the handler's status codes:
an absent session or one with `reject_data` set answers `NoSuchSession`
(404); an existing accepting session past `expires_at` is removed from the
store in the same call and answers `SessionExpired` (410); otherwise the
wrapped point is appended (it becomes the last element of the ring) and the
call succeeds (200). -/
theorem addLocation_outcomes (st : StateS) (d : PostRequest)
    (now nowStamp : ℚ) :
    (lookupSession st.sessions d.sessionId = none →
      (addLocation st d now nowStamp).2.2 = some .noSuchSession) ∧
    (∀ s, lookupSession st.sessions d.sessionId = some s →
      s.rejectData = true →
      (addLocation st d now nowStamp).2.2 = some .noSuchSession) ∧
    (∀ s, lookupSession st.sessions d.sessionId = some s →
      s.rejectData = false → s.expiresAt < now →
      (st.sessions.map Prod.fst).Nodup →
      (addLocation st d now nowStamp).2.2 = some .sessionExpired ∧
      lookupSession (addLocation st d now nowStamp).1.sessions d.sessionId
        = none) ∧
    (∀ s, lookupSession st.sessions d.sessionId = some s →
      s.rejectData = false → ¬ s.expiresAt < now → 0 < s.maxPoints →
      (addLocation st d now nowStamp).2.2 = none ∧
      ∃ s', lookupSession (addLocation st d now nowStamp).1.sessions
              d.sessionId = some s' ∧
        s'.locations.getLast? = some (newLocationOf st d)) ∧
    postLocationStatus (some .noSuchSession) = 404 ∧
    postLocationStatus (some .sessionExpired) = 410 ∧
    postLocationStatus none = 200 := by
  refine ⟨fun hl => ?_, fun s hl hr => ?_, fun s hl hr he hnd => ?_,
    fun s hl hr he hmp => ?_, rfl, rfl, rfl⟩
  · simp [addLocation, hl]
  · simp [addLocation, hl, hr]
  · have hrm : removeSession st d.sessionId nowStamp =
        ((removeSession st d.sessionId nowStamp).1,
         (removeSession st d.sessionId nowStamp).2) := rfl
    constructor
    · simp [addLocation, hl, hr, he]
    · have hsess : (addLocation st d now nowStamp).1.sessions =
          mapRemove st.sessions d.sessionId := by
        simp [addLocation, hl, hr, he, removeSession]
      rw [hsess]
      exact lookup_mapRemove_self _ _ hnd
  · have hr' : s.rejectData ≠ true := by simp [hr]
    refine ⟨by simp [addLocation, hl, hr', he], ?_⟩
    have hsess : ∃ s2,
        (addLocation st d now nowStamp).1.sessions =
          mapInsert st.sessions d.sessionId s2 ∧
        s2.locations =
          (let locs := s.locations ++ [newLocationOf st d]
           if s.maxPoints < locs.length then locs.tail else locs) := by
      simp only [addLocation, hl, hr', he, if_neg, if_false]
      refine ⟨_, rfl, ?_⟩
      simp [addDataExpiration]
      split <;> (try split) <;> (try split) <;> simp
    rcases hsess with ⟨s2, hse, hlocs⟩
    refine ⟨s2, by rw [hse]; exact lookup_mapInsert_self _ _ _, ?_⟩
    rw [hlocs]
    simp only []
    split
    · next hlt =>
        cases hloc : s.locations with
        | nil =>
            exfalso
            rw [hloc] at hlt
            simp at hlt
            omega
        | cons a l => simp
    · simp

/-- C6 witness: in `exStateNoStop` (session `"S"` live until 100, cap 3), a
post at time 0 succeeds and appends the point, and a post against an unknown
session id answers `NoSuchSession`. -/
theorem addLocation_outcomes_witness :
    (addLocation exStateNoStop ⟨"S", none, 1, 2, 3, none, none⟩ 0 0).2.2
      = none ∧
    (addLocation exStateNoStop ⟨"X", none, 1, 2, 3, none, none⟩ 0 0).2.2
      = some .noSuchSession := by
  have h1 := (addLocation_outcomes exStateNoStop
    ⟨"S", none, 1, 2, 3, none, none⟩ 0 0).2.2.2.1 exSessionNoStop
    (by decide) (by decide) (by decide) (by decide)
  have h2 := (addLocation_outcomes exStateNoStop
    ⟨"X", none, 1, 2, 3, none, none⟩ 0 0).1 (by decide)
  exact ⟨h1.1, h2⟩

/-! ## C7: the bounded token ring -/

theorem get?_append_length {α : Type} (l₁ : List α) (a : α) (l₂ : List α) :
    (l₁ ++ a :: l₂).get? l₁.length = some a := by
  induction l₁ with
  | nil => rfl
  | cons b l ih => simpa using ih

theorem set_append_length {α : Type} (l₁ : List α) (a x : α) (l₂ : List α) :
    (l₁ ++ a :: l₂).set l₁.length x = l₁ ++ x :: l₂ := by
  induction l₁ with
  | nil => rfl
  | cons b l ih => simpa [List.set] using ih

theorem drop_window_succ {α : Type} (processed : List α) (x : α) (N : ℕ)
    (hN : 1 ≤ N) (h : N ≤ processed.length) :
    (processed ++ [x]).drop (processed.length + 1 - N) =
      (processed.drop (processed.length - N)).tail ++ [x] := by
  have h1 : processed.length + 1 - N = (processed.length - N) + 1 := by omega
  rw [h1, List.drop_append_of_le_length (by omega), ← List.tail_drop]

theorem nodup_mid_replace {α : Type} {w t : List α} {a x : α}
    (h : (w ++ a :: t).Nodup) (hxw : x ∉ w) (hxt : x ∉ t) :
    (w ++ x :: t).Nodup := by
  rw [List.nodup_append] at h ⊢
  obtain ⟨hw, hat, hdis⟩ := h
  rw [List.nodup_cons] at hat
  refine ⟨hw, List.nodup_cons.mpr ⟨hxt, hat.2⟩, ?_⟩
  intro y hy hy2
  rcases List.mem_cons.mp hy2 with rfl | hyt
  · exact hxw hy
  · exact hdis hy (List.mem_cons_of_mem _ hyt)

theorem toFinset_mid_replace {α : Type} [DecidableEq α] {w t : List α}
    {a x : α} (h : (w ++ a :: t).Nodup) (hxa : x ≠ a) :
    (Insert.insert x (w ++ a :: t).toFinset).erase a =
      (w ++ x :: t).toFinset := by
  have haw : a ∉ w := by
    rw [List.nodup_append] at h
    exact fun hmem => h.2.2 hmem (by simp)
  have hat : a ∉ t := by
    rw [List.nodup_append, List.nodup_cons] at h
    exact h.2.1.1
  ext y
  by_cases hya : y = a
  · subst hya
    simp [haw, hat, Ne.symm hxa]
  · simp only [Finset.mem_erase, Finset.mem_insert, List.mem_toFinset,
      List.mem_append, List.mem_cons, hya, not_false_iff, true_and]
    tauto

theorem bsetInv_insert {α : Type} [DecidableEq α] {N : ℕ} (hN : 1 ≤ N)
    {processed : List α} {s : BoundedSet α} {x : α}
    (hx : x ∉ processed) (h : BSetInv N processed s) :
    BSetInv N (processed ++ [x]) (s.insert x) := by
  obtain ⟨hms, hlen, hnd, hset, hmem, w₁, w₂, hwin, hord, hring, hw₂⟩ := h
  have hxset : x ∉ s.set := by
    rw [hset]
    simp only [List.mem_toFinset]
    exact fun hmem2 => hx (hmem _ hmem2)
  rw [BoundedSet.insert, if_neg hxset]
  by_cases hfull : s.insertionOrder.length = s.maxSize
  · rw [if_pos hfull]
    rw [hms] at hfull
    have hplen : N ≤ processed.length := by
      have h1 := Nat.min_le_left processed.length N
      omega
    have hwin2 := drop_window_succ processed x N hN hplen
    rw [hwin] at hwin2
    have hlenplus : (processed ++ [x]).length - N =
        processed.length + 1 - N := by
      simp
    cases w₁ with
    | nil =>
        rw [if_pos rfl] at hring
        rw [List.append_nil] at hord
        cases hw : w₂ with
        | nil =>
            exfalso
            rw [hw] at hord
            rw [hord] at hfull
            simp at hfull
            omega
        | cons hd t =>
            subst hw
            have hlN : t.length + 1 = N := by
              have := hfull
              rw [hord] at this
              simpa using this
            have hget : s.insertionOrder.get? s.ringIndex = some hd := by
              rw [hord, hring]
              rfl
            rw [hget]
            have hsetlist : s.insertionOrder.set s.ringIndex x = x :: t := by
              rw [hord, hring]
              rfl
            have hhd : hd ∈ processed := hmem hd (by rw [hord]; simp)
            have hxhd : x ≠ hd := fun he => hx (he ▸ hhd)
            have htproc : ∀ y ∈ t, y ∈ processed := fun y hy =>
              hmem y (by rw [hord]; simp [hy])
            have hxt : x ∉ t := fun hm => hx (htproc x hm)
            have hndc : (([] : List α) ++ hd :: t).Nodup := by
              rw [hord] at hnd
              simpa using hnd
            refine ⟨hms, ?_, ?_, ?_, ?_, t, [x], ?_, ?_, ?_, ?_⟩
            · rw [hsetlist]
              simp only [List.length_cons, List.length_append,
                List.length_cons, List.length_nil]
              have ht2 : t.length = N - 1 := by omega
              rw [Nat.min_def]
              split <;> omega
            · rw [hsetlist]
              simpa using nodup_mid_replace (w := []) hndc (by simp) hxt
            · rw [hsetlist, hset, hord]
              simpa using toFinset_mid_replace (w := []) hndc hxhd
            · intro y hy
              rw [hsetlist] at hy
              rcases List.mem_cons.mp hy with rfl | hy
              · simp
              · simp [htproc y hy]
            · rw [hlenplus, hwin2]
              simp
            · rw [hsetlist]
              simp
            · rw [hring, hms]
              cases ht : t with
              | nil =>
                  have : N = 1 := by rw [ht] at hlN; simpa using hlN.symm
                  simp [this]
              | cons b u =>
                  have h2 : 2 ≤ N := by rw [ht] at hlN; simp at hlN; omega
                  rw [if_neg (by simp)]
                  simp [Nat.mod_eq_of_lt h2]
            · intro _
              rw [hsetlist]
              simpa using hlN
    | cons a t₁ =>
        rw [if_neg (by simp)] at hring
        have hndc : (w₂ ++ a :: t₁).Nodup := by
          rw [hord] at hnd
          exact hnd
        have hlN : w₂.length + (t₁.length + 1) = N := by
          have := hfull
          rw [hord] at this
          simpa using this
        have hget : s.insertionOrder.get? s.ringIndex = some a := by
          rw [hord, hring]
          exact get?_append_length w₂ a t₁
        rw [hget]
        have hsetlist : s.insertionOrder.set s.ringIndex x =
            w₂ ++ x :: t₁ := by
          rw [hord, hring]
          exact set_append_length w₂ a x t₁
        have hmemc : ∀ y ∈ w₂ ++ a :: t₁, y ∈ processed := fun y hy =>
          hmem y (by rw [hord]; exact hy)
        have hxa : x ≠ a := fun he => hx (hmemc x (by simp [he]))
        have hxw : x ∉ w₂ := fun hm => hx (hmemc x (by simp [hm]))
        have hxt : x ∉ t₁ := fun hm => hx (hmemc x (by simp [hm]))
        refine ⟨hms, ?_, ?_, ?_, ?_, t₁, w₂ ++ [x], ?_, ?_, ?_, ?_⟩
        · rw [hsetlist]
          simp only [List.length_append, List.length_cons, List.length_nil]
          omega
        · rw [hsetlist]
          exact nodup_mid_replace hndc hxw hxt
        · rw [hsetlist, hset, hord]
          exact toFinset_mid_replace hndc hxa
        · intro y hy
          rw [hsetlist] at hy
          rcases List.mem_append.mp hy with hy | hy
          · simp [hmemc y (by simp [hy])]
          · rcases List.mem_cons.mp hy with rfl | hy
            · simp
            · simp [hmemc y (by simp [hy])]
        · rw [hlenplus, hwin2]
          simp
        · rw [hsetlist]
          simp
        · rw [hring, hms]
          cases ht : t₁ with
          | nil =>
              have hn : w₂.length + 1 = N := by rw [ht] at hlN; simpa using hlN
              simp [hn]
          | cons b u =>
              have h2 : w₂.length + 1 < N := by rw [ht] at hlN; simp at hlN; omega
              rw [if_neg (by simp)]
              simp [Nat.mod_eq_of_lt h2]
        · intro _
          rw [hsetlist]
          simp only [List.length_append, List.length_cons]
          omega
  · rw [if_neg hfull]
    rw [hms] at hfull
    have hplen : processed.length < N := by
      rcases Nat.le_total N processed.length with h1 | h1
      · exfalso
        exact hfull (by rw [hlen]; omega)
      · rcases Nat.lt_or_ge processed.length N with h2 | h2
        · exact h2
        · exfalso
          exact hfull (by rw [hlen]; omega)
    have hlen2 : s.insertionOrder.length = processed.length := by
      rw [hlen]
      omega
    have hw2nil : w₂ = [] := by
      by_contra hne
      exact hfull (by rw [hw₂ hne])
    subst hw2nil
    have hword : s.insertionOrder = w₁ := by simpa using hord
    have hwproc : processed = w₁ := by
      have : processed.length - N = 0 := by omega
      rw [this] at hwin
      simpa using hwin
    have hring0 : s.ringIndex = 0 := by
      rw [hring]
      split <;> rfl
    have hxord : x ∉ s.insertionOrder := fun hm => hx (hmem x hm)
    refine ⟨hms, ?_, ?_, ?_, ?_, processed ++ [x], [], ?_, ?_, ?_, ?_⟩
    · simp only [List.length_append, List.length_cons, List.length_nil,
        hlen2]
      rw [Nat.min_def]
      split <;> simp <;> omega
    · simp only [List.nodup_append, List.nodup_cons, List.nodup_nil]
      exact ⟨hnd, ⟨by simp, by simp⟩, by
        intro y hy hy2
        rcases List.mem_cons.mp hy2 with rfl | hy3
        · exact hxord hy
        · cases hy3⟩
    · rw [hset]
      ext y
      simp [or_comm]
    · intro y hy
      rcases List.mem_append.mp hy with hy | hy
      · simp [hmem y hy]
      · rcases List.mem_cons.mp hy with rfl | hy
        · simp
        · cases hy
    · have : (processed ++ [x]).length - N = 0 := by simp; omega
      rw [this]
      simp
    · rw [hword, hwproc]
      simp
    · simp [hring0]
    · intro hc
      cases hc rfl



theorem bsetInv_insertAll {α : Type} [DecidableEq α] {N : ℕ} (hN : 1 ≤ N) :
    ∀ (xs processed : List α) (s : BoundedSet α), BSetInv N processed s →
      (processed ++ xs).Nodup → BSetInv N (processed ++ xs) (s.insertAll xs)
  | [], processed, s, h, _ => by simpa [BoundedSet.insertAll] using h
  | x :: xs, processed, s, h, hnd => by
      have hx : x ∉ processed := fun hxp =>
        (List.nodup_append.mp hnd).2.2 hxp (by simp)
      have h1 := bsetInv_insert hN hx h
      have hassoc : processed ++ x :: xs = (processed ++ [x]) ++ xs := by
        simp
      rw [hassoc] at hnd ⊢
      have h2 := bsetInv_insertAll hN xs (processed ++ [x]) (s.insert x)
        h1 hnd
      simpa [BoundedSet.insertAll] using h2

/-- C7: for a `BoundedSet` of capacity `N ≥ 1`, (a) after inserting a
sequence of `M` distinct elements into a fresh set, the members are exactly
the last `min M N` elements inserted (the oldest is evicted on overflow),
and (b) inserting an element that is already present returns the set
completely unchanged — membership, slot layout and `ring_index` (the
eviction ages) included. -/
theorem boundedSet_ring_spec (α : Type) [DecidableEq α] (N : ℕ)
    (hN : 1 ≤ N) (xs : List α) (hnd : xs.Nodup) :
    ((BoundedSet.new α N).insertAll xs).set =
      (xs.drop (xs.length - N)).toFinset ∧
    ∀ (s : BoundedSet α) (v : α), v ∈ s.set → s.insert v = s := by
  constructor
  · have h0 : BSetInv N [] (BoundedSet.new α N) := by
      exact ⟨rfl, by simp [BoundedSet.new], by simp [BoundedSet.new],
        by simp [BoundedSet.new], by simp [BoundedSet.new], [], [],
        by simp, by simp [BoundedSet.new], by simp [BoundedSet.new],
        by simp [BoundedSet.new]⟩
    have h := bsetInv_insertAll hN xs [] (BoundedSet.new α N) h0
      (by simpa using hnd)
    obtain ⟨_, _, _, hset, _, w₁, w₂, hwin, hord, _, _⟩ := h
    simp only [List.nil_append] at hwin hord
    rw [hset, hord, hwin]
    ext y
    simp only [List.mem_toFinset, List.mem_append]
    exact or_comm
  · intro s v hv
    simp [BoundedSet.insert, hv]

/-- C7 witness: capacity 3, five distinct insertions; the members are the
last three. -/
theorem boundedSet_ring_spec_witness :
    ((BoundedSet.new ℕ 3).insertAll [1, 2, 3, 4, 5]).set =
      ([3, 4, 5] : List ℕ).toFinset :=
  (boundedSet_ring_spec ℕ 3 (by decide) [1, 2, 3, 4, 5] (by decide)).1

/-! ## C5: fetch-id issuance and restart -/

theorem loadLoop_highwater (now : ℚ) :
    ∀ (db : List DbSession) (st : StateS) (hi : ℕ),
      (loadLoop now db st hi).2.1 =
        (db.filter fun d => decide (now < d.expiresAt)).foldl
          (fun h d => Max.max h d.fetchId) hi
  | [], st, hi => rfl
  | d :: rest, st, hi => by
      by_cases hl : now < d.expiresAt
      · have hmax : (if hi < d.fetchId then d.fetchId else hi) =
            Max.max hi d.fetchId := by
          rcases Nat.lt_or_ge hi d.fetchId with h | h
          · simp [h, Nat.max_eq_right (Nat.le_of_lt h)]
          · simp [Nat.not_lt.mpr h, Nat.max_eq_left h]
        simp only [loadLoop, if_pos hl, List.filter_cons,
          decide_eq_true hl, loadLoop_highwater now rest, hmax]
        rfl
      · simp only [loadLoop, if_neg hl, List.filter_cons]
        rw [decide_eq_false hl]
        simpa using loadLoop_highwater now rest st hi

theorem issuedIds_eq_range (st : StateS) :
    ∀ n : ℕ, st.nextFetchId + n ≤ 2 ^ 32 →
      issuedIds st n = (List.range n).map (st.nextFetchId + ·) := by
  intro n
  induction n generalizing st with
  | zero => intro _; rfl
  | succ n ih =>
      intro hle
      rw [issuedIds]
      rcases Nat.lt_or_ge (st.nextFetchId + 1) (2 ^ 32) with hlt | hge
      · have hmod : (st.nextFetchId + 1) % 2 ^ 32 = st.nextFetchId + 1 :=
          Nat.mod_eq_of_lt hlt
        have hst' : ({ st with
            nextFetchId := (st.nextFetchId + 1) % 2 ^ 32 } :
              StateS).nextFetchId = st.nextFetchId + 1 := hmod
        rw [generateFetchId]
        simp only []
        rw [ih _ (by rw [hst']; omega), hst']
        rw [List.range_succ_eq_map, List.map_cons, List.map_map]
        refine congrArg₂ _ (by omega) ?_
        apply List.map_congr_left
        intro i _
        simp [Function.comp]
        omega
      · have hn : n = 0 := by omega
        subst hn
        rfl

/-- C5 (amended): within one process, `generate_fetch_id` hands out strictly
increasing, never reused ids as long as the `u32` counter does not wrap; and
after a restart `load_state` sets the next fetch id to one plus the largest
fetch id among the persisted sessions *still live* at load time (0 if none)
— persisted-but-expired sessions are deleted during the load and do not
contribute to the highwater mark. -/
theorem fetchId_issue_spec :
    (∀ (now : ℚ) (st : StateS) (db : List DbSession),
      (loadStateF now st db).1.nextFetchId = maxLiveFetchId now db + 1) ∧
    (∀ (st : StateS) (n : ℕ), st.nextFetchId + n ≤ 2 ^ 32 →
      List.Pairwise (· < ·) (issuedIds st n)) := by
  constructor
  · intro now st db
    rw [loadStateF]
    simp only []
    rw [loadLoop_highwater]
    rfl
  · intro st n hle
    rw [issuedIds_eq_range st n hle]
    refine List.Pairwise.map (st.nextFetchId + ·)
      (fun a b (h : a < b) => ?_) (List.pairwise_lt_range n)
    show st.nextFetchId + a < st.nextFetchId + b
    omega

/-- C5 witness: loading `exDb` at time 5 gives next id `5 + 1`, and three
ids issued from `exStateNoStop` (counter at 8) are strictly increasing. -/
theorem fetchId_issue_spec_witness :
    (loadStateF 5 (baseState exCfg) exDb).1.nextFetchId =
      maxLiveFetchId 5 exDb + 1 ∧
    List.Pairwise (· < ·) (issuedIds exStateNoStop 3) :=
  ⟨fetchId_issue_spec.1 5 (baseState exCfg) exDb,
   fetchId_issue_spec.2 exStateNoStop 3 (by decide)⟩

/-- C5 counterexample: in `exDb` the largest fetch id present in persistence
at load time is 10 (on an expired session), but the next fetch id after
restart is 6, not 11. -/
theorem restart_fetchId_not_max_persisted :
    (initState exCfg exDb 5).nextFetchId = 6 ∧
    ((exDb.map DbSession.fetchId).foldl Max.max 0) + 1 = 11 := by
  constructor
  · rfl
  · rfl

/-! ## C3: the windowed coalescer -/

theorem okInputs_cons (now : ℚ) (e : UpdateWithContext)
    (rest : List (ℚ × UpdateWithContext)) :
    okInputs ((now, e) :: rest) = (now, CoalEvent.ok e) :: okInputs rest :=
  rfl

theorem coalRun_cons (W now : ℚ) (ev : CoalEvent) (st : CoalState)
    (l : List (ℚ × CoalEvent)) :
    coalRun W st ((now, ev) :: l) =
      ((coalRun W (coalStep W now st ev).1 l).1,
       (coalStep W now st ev).2 ++
         (coalRun W (coalStep W now st ev).1 l).2) := rfl

theorem coalStep_ok_notFirst (W now : ℚ) (st : CoalState)
    (e a : UpdateWithContext) (hf : st.first = false)
    (ha : st.accum = some a) :
    coalStep W now st (.ok e) =
      if (match st.tPrev with
          | some tp => decide (e.meta.serverTime - tp < W)
          | none => true) then
        ({ st with accum := some (a.ingest e), first := false }, [])
      else
        ({ tPrev := some e.meta.serverTime, accum := some e,
           first := false },
         [.ok { a with meta := { a.meta with serverTime := now } }]) := by
  cases hb : (match st.tPrev with
      | some tp => decide (e.meta.serverTime - tp < W)
      | none => true) with
  | true => simp [coalStep, hf, ha, hb]
  | false => simp [coalStep, hf, ha, hb]

theorem coalRunOk_spec (W : ℚ) :
    ∀ (ins : List (ℚ × UpdateWithContext)) (st : CoalState)
      (a : UpdateWithContext), st.first = false → st.accum = some a →
      ∃ (outs2 : List UpdateWithContext) (aF : UpdateWithContext),
        (coalRun W st (okInputs ins)).2 = outs2.map CoalEvent.ok ∧
        (coalRun W st (okInputs ins)).1.accum = some aF ∧
        (coalRun W st (okInputs ins)).1.first = false ∧
        (outs2.map fun o => o.updates).flatten ++ aF.updates =
          a.updates ++ (ins.map fun p => p.2.updates).flatten ∧
        (outs2.map fun o => o.meta.serverTime).Sublist
          (ins.map Prod.fst)
  | [], st, a, hf, ha =>
      ⟨[], a, rfl, ha, hf, by simp, by simp⟩
  | (now, e) :: rest, st, a, hf, ha => by
      rw [okInputs_cons, coalRun_cons]
      rw [coalStep_ok_notFirst W now st e a hf ha]
      cases hb : (match st.tPrev with
          | some tp => decide (e.meta.serverTime - tp < W)
          | none => true) with
      | true =>
          rw [if_pos rfl]
          obtain ⟨outsR, aF, h1, h2, h3, h4, h5⟩ :=
            coalRunOk_spec W rest
              { st with accum := some (a.ingest e), first := false }
              (a.ingest e) rfl rfl
          refine ⟨outsR, aF, ?_, ?_, ?_, ?_, ?_⟩
          · simpa using h1
          · simpa using h2
          · simpa using h3
          · simp only [List.map_cons, List.flatten_cons]
            rw [h4]
            simp [UpdateWithContext.ingest]
          · simp only [List.map_cons]
            exact h5.trans (List.sublist_cons_self _ _)
      | false =>
          rw [if_neg (by simp)]
          obtain ⟨outsR, aF, h1, h2, h3, h4, h5⟩ :=
            coalRunOk_spec W rest
              { tPrev := some e.meta.serverTime, accum := some e,
                first := false } e rfl rfl
          refine ⟨{ a with meta := { a.meta with serverTime := now } } ::
            outsR, aF, ?_, ?_, ?_, ?_, ?_⟩
          · simpa using h1
          · simpa using h2
          · simpa using h3
          · simp only [List.map_cons, List.flatten_cons]
            rw [List.append_assoc, h4]
          · simp only [List.map_cons]
            exact h5.cons₂ now

/-- C3 counterexample: the first event of a subscriber stream is *not* held
in the accumulator until a later flush decision — it is stamped and emitted
immediately — and it is also retained as the accumulator base, so its
changes are emitted a second time at the next flush while the second event
is still pending: over the inputs `exUwc`, `exUwc2` (outside the window) the
outputs are `exUwc` twice and `exUwc2` not at all. -/
theorem coalesce_first_event_duplicated :
    (coalRun 1 coalInit [((7 : ℚ), .ok exUwc)]).2 =
      [.ok { exUwc with meta := { exUwc.meta with serverTime := 7 } }] ∧
    (coalRun 1 coalInit
        [((7 : ℚ), .ok exUwc), ((100 : ℚ), .ok exUwc2)]).2 =
      [.ok { exUwc with meta := { exUwc.meta with serverTime := 7 } },
       .ok { exUwc with meta := { exUwc.meta with serverTime := 100 } }] := by
  have hstep1 : coalStep 1 7 coalInit (.ok exUwc) =
      ({ tPrev := some (5 : ℚ), accum := some exUwc, first := false },
       [.ok { exUwc with meta := { exUwc.meta with serverTime := 7 } }]) :=
    rfl
  have hstep2 : coalStep 1 100
      ({ tPrev := some (5 : ℚ), accum := some exUwc, first := false } :
        CoalState) (.ok exUwc2) =
      ({ tPrev := some (50 : ℚ), accum := some exUwc2, first := false },
       [.ok { exUwc with
              meta := { exUwc.meta with serverTime := 100 } }]) := by
    rw [coalStep_ok_notFirst 1 100 _ exUwc2 exUwc rfl rfl]
    norm_num [exUwc, exUwc2]
  refine ⟨rfl, ?_⟩
  rw [coalRun_cons, hstep1, coalRun_cons, hstep2]
  rfl

/-- C3 (amended): over any error-free input prefix whose arrival times are
nondecreasing, the coalescer emits only `Ok` outputs with nondecreasing
stamped server times; the emitted change sequences, followed by the pending
accumulator, concatenate to the first event's changes followed by the whole
incoming change sequence in order — i.e. every event's changes appear
exactly once except the first event's, which are emitted immediately on
arrival (head output) and then once more as the accumulator base. -/
theorem coalesce_ordering_spec (W t1 : ℚ) (e1 : UpdateWithContext)
    (rest : List (ℚ × UpdateWithContext))
    (hmono : List.Pairwise (· ≤ ·) (t1 :: rest.map Prod.fst)) :
    ∃ (outs2 : List UpdateWithContext) (aF : UpdateWithContext),
      (coalRun W coalInit (okInputs ((t1, e1) :: rest))).2 =
        outs2.map CoalEvent.ok ∧
      (coalRun W coalInit (okInputs ((t1, e1) :: rest))).1.accum =
        some aF ∧
      (outs2.map fun o => o.updates).flatten ++ aF.updates =
        e1.updates ++
          (((t1, e1) :: rest).map fun p => p.2.updates).flatten ∧
      List.Pairwise (· ≤ ·) (outs2.map fun o => o.meta.serverTime) ∧
      outs2.head? =
        some { e1 with meta := { e1.meta with serverTime := t1 } } := by
  have hstep : coalStep W t1 coalInit (.ok e1) =
      ({ tPrev := some e1.meta.serverTime, accum := some e1,
         first := false },
       [.ok { e1 with meta := { e1.meta with serverTime := t1 } }]) := rfl
  rw [okInputs_cons, coalRun_cons, hstep]
  obtain ⟨outsR, aF, h1, h2, h3, h4, h5⟩ := coalRunOk_spec W rest
    { tPrev := some e1.meta.serverTime, accum := some e1, first := false }
    e1 rfl rfl
  refine ⟨{ e1 with meta := { e1.meta with serverTime := t1 } } :: outsR,
    aF, ?_, ?_, ?_, ?_, ?_⟩
  · simpa using h1
  · simpa using h2
  · simp only [List.map_cons, List.flatten_cons]
    rw [List.append_assoc, h4]
  · simp only [List.map_cons]
    rw [List.pairwise_cons] at hmono ⊢
    refine ⟨?_, ?_⟩
    · intro y hy
      exact hmono.1 y (h5.mem hy)
    · exact hmono.2.sublist h5
  · rfl

/-- C3 witness: two concrete events outside the coalescing window. -/
theorem coalesce_ordering_spec_witness :
    ∃ (outs2 : List UpdateWithContext) (aF : UpdateWithContext),
      (coalRun 1 coalInit (okInputs [((7 : ℚ), exUwc),
          ((100 : ℚ), exUwc2)])).2 = outs2.map CoalEvent.ok ∧
      (coalRun 1 coalInit (okInputs [((7 : ℚ), exUwc),
          ((100 : ℚ), exUwc2)])).1.accum = some aF ∧
      (outs2.map fun o => o.updates).flatten ++ aF.updates =
        exUwc.updates ++
          ([((7 : ℚ), exUwc), ((100 : ℚ), exUwc2)].map
            fun p => p.2.updates).flatten ∧
      List.Pairwise (· ≤ ·) (outs2.map fun o => o.meta.serverTime) ∧
      outs2.head? =
        some { exUwc with meta := { exUwc.meta with serverTime := 7 } } :=
  coalesce_ordering_spec 1 7 exUwc [((100 : ℚ), exUwc2)] (by decide)


/-- C1 amended witness: a concrete disjoint update containing all four
change kinds is let through, and the `AddFetch` change it still carries is
the emptied one (no fetch entries, only the public tags). -/
theorem disjoint_update_content_free_witness :
    (UpdateChange.addFetch ([] : List (FetchId × Fetch)) {⟨"a"⟩}) =
        UpdateChange.reset ∨
    (∃ pub, (UpdateChange.addFetch ([] : List (FetchId × Fetch)) {⟨"a"⟩}) =
        UpdateChange.addFetch [] pub) ∨
    (UpdateChange.addFetch ([] : List (FetchId × Fetch)) {⟨"a"⟩}) =
        UpdateChange.add [] :=
  disjoint_update_content_free
    ⟨⟨0, 0⟩,
      [.reset,
       .addFetch [(1, { tags := {⟨"a"⟩}, maxPoints := 3,
                        maxPointAge := none, name := none })] {⟨"a"⟩},
       .add [(1, [])], .expireFetch 1]⟩
    {⟨"b"⟩} { tags := {⟨"a"⟩}, isHeartbeat := false }
    (by decide) (by decide)
    ⟨⟨0, 0⟩, [.reset, .addFetch [] {⟨"a"⟩}, .add []]⟩ (by decide)
    (.addFetch [] {⟨"a"⟩}) (by decide)

/-! ## C4: the public-tag refcount invariant -/

theorem tagRefcount_addPublicTag (pt : List (Tag × ℕ)) (t u : Tag) :
    tagRefcount (addPublicTag pt t) u =
      tagRefcount pt u + (if u = t then 1 else 0) := by
  induction pt with
  | nil =>
      by_cases h : u = t
      · simp [addPublicTag, tagRefcount, h]
      · simp [addPublicTag, tagRefcount, h, Ne.symm h]
  | cons p rest ih =>
      obtain ⟨v, n⟩ := p
      by_cases hv : v = t
      · subst hv
        by_cases hu : v = u
        · subst hu
          simp [addPublicTag, tagRefcount]
        · simp [addPublicTag, tagRefcount, hu, Ne.symm hu]
      · by_cases hu : v = u
        · subst hu
          simp [addPublicTag, tagRefcount, hv, Ne.symm hv]
        · simp [addPublicTag, tagRefcount, hv, hu, ih]

theorem addPublicTag_pos (pt : List (Tag × ℕ)) (t : Tag)
    (h : ∀ p ∈ pt, 0 < p.2) : ∀ p ∈ addPublicTag pt t, 0 < p.2 := by
  induction pt with
  | nil => simp [addPublicTag]
  | cons q rest ih =>
      obtain ⟨v, n⟩ := q
      by_cases hv : v = t
      · subst hv
        intro p hp
        rw [addPublicTag, if_pos rfl] at hp
        rcases List.mem_cons.mp hp with rfl | hp
        · simp
        · exact h p (by simp [hp])
      · intro p hp
        rw [addPublicTag, if_neg hv] at hp
        rcases List.mem_cons.mp hp with rfl | hp
        · exact h (v, n) (by simp)
        · exact ih (fun q hq => h q (by simp [hq])) p hp

theorem addPublicTag_keys (pt : List (Tag × ℕ)) (t : Tag) :
    (addPublicTag pt t).map Prod.fst =
      if t ∈ pt.map Prod.fst then pt.map Prod.fst
      else pt.map Prod.fst ++ [t] := by
  induction pt with
  | nil => simp [addPublicTag]
  | cons q rest ih =>
      obtain ⟨v, n⟩ := q
      by_cases hv : v = t
      · subst hv
        simp [addPublicTag]
      · rw [addPublicTag, if_neg hv]
        by_cases ht : t ∈ rest.map Prod.fst
        · simp [ih, ht, Ne.symm hv]
        · simp [ih, ht, Ne.symm hv]

theorem addPublicTag_nodup (pt : List (Tag × ℕ)) (t : Tag)
    (h : (pt.map Prod.fst).Nodup) :
    ((addPublicTag pt t).map Prod.fst).Nodup := by
  rw [addPublicTag_keys]
  by_cases ht : t ∈ pt.map Prod.fst
  · simpa [ht] using h
  · rw [if_neg ht]
    simp only [List.nodup_append, List.nodup_cons, List.nodup_nil]
    exact ⟨h, ⟨by simp, by simp⟩, fun y hy hy2 => by
      rcases List.mem_cons.mp hy2 with rfl | h3
      · exact ht hy
      · cases h3⟩

theorem tagRefcount_eq_zero_of_not_mem (pt : List (Tag × ℕ)) (u : Tag)
    (h : u ∉ pt.map Prod.fst) : tagRefcount pt u = 0 := by
  induction pt with
  | nil => rfl
  | cons q rest ih =>
      obtain ⟨v, n⟩ := q
      simp only [List.map_cons, List.mem_cons, not_or] at h
      rw [tagRefcount, if_neg (fun he : v = u => h.1 he.symm)]
      exact ih h.2

theorem tagRefcount_removePublicTag (pt : List (Tag × ℕ)) (t u : Tag)
    (hnd : (pt.map Prod.fst).Nodup) :
    tagRefcount (removePublicTag pt t) u =
      tagRefcount pt u - (if u = t then 1 else 0) := by
  induction pt with
  | nil => simp [removePublicTag, tagRefcount]
  | cons p rest ih =>
      obtain ⟨v, n⟩ := p
      simp only [List.map_cons, List.nodup_cons] at hnd
      by_cases hv : v = t
      · subst hv
        rw [removePublicTag, if_pos rfl]
        by_cases hu : u = v
        · subst hu
          rw [tagRefcount, if_pos rfl]
          have hz : tagRefcount rest u = 0 :=
            tagRefcount_eq_zero_of_not_mem rest u hnd.1
          by_cases hn : n - 1 = 0
          · rw [if_pos hn, hz]
            simp
            omega
          · rw [if_neg hn, tagRefcount, if_pos rfl]
            simp
        · by_cases hn : n - 1 = 0
          · rw [if_pos hn, tagRefcount, if_neg (Ne.symm hu)]
            simp [hu]
          · rw [if_neg hn, tagRefcount, if_neg (Ne.symm hu),
              tagRefcount, if_neg (Ne.symm hu)]
            simp [hu]
      · rw [removePublicTag, if_neg hv]
        by_cases hu : u = v
        · subst hu
          rw [tagRefcount, if_pos rfl, tagRefcount, if_pos rfl]
          simp [fun he : u = t => hv he]
        · rw [tagRefcount, if_neg (Ne.symm hu), tagRefcount,
            if_neg (Ne.symm hu)]
          exact ih hnd.2

theorem removePublicTag_pos (pt : List (Tag × ℕ)) (t : Tag)
    (h : ∀ p ∈ pt, 0 < p.2) : ∀ p ∈ removePublicTag pt t, 0 < p.2 := by
  induction pt with
  | nil => simp [removePublicTag]
  | cons q rest ih =>
      obtain ⟨v, n⟩ := q
      by_cases hv : v = t
      · subst hv
        rw [removePublicTag, if_pos rfl]
        by_cases hn : n - 1 = 0
        · rw [if_pos hn]
          exact fun p hp => h p (by simp [hp])
        · rw [if_neg hn]
          intro p hp
          rcases List.mem_cons.mp hp with rfl | hp
          · simpa using Nat.pos_of_ne_zero hn
          · exact h p (by simp [hp])
      · rw [removePublicTag, if_neg hv]
        intro p hp
        rcases List.mem_cons.mp hp with rfl | hp
        · exact h (v, n) (by simp)
        · exact ih (fun q hq => h q (by simp [hq])) p hp

theorem removePublicTag_keys_sub (pt : List (Tag × ℕ)) (t : Tag) :
    ∀ u ∈ (removePublicTag pt t).map Prod.fst, u ∈ pt.map Prod.fst := by
  induction pt with
  | nil => simp [removePublicTag]
  | cons q rest ih =>
      obtain ⟨v, n⟩ := q
      by_cases hv : v = t
      · subst hv
        rw [removePublicTag, if_pos rfl]
        by_cases hn : n - 1 = 0
        · rw [if_pos hn]
          intro u hu
          simp only [List.map_cons, List.mem_cons]
          exact Or.inr hu
        · rw [if_neg hn]
          intro u hu
          simp only [List.map_cons, List.mem_cons] at hu ⊢
          exact hu
      · rw [removePublicTag, if_neg hv]
        intro u hu
        simp only [List.map_cons, List.mem_cons] at hu ⊢
        rcases hu with rfl | hu
        · exact Or.inl rfl
        · exact Or.inr (ih u hu)

theorem removePublicTag_nodup (pt : List (Tag × ℕ)) (t : Tag)
    (h : (pt.map Prod.fst).Nodup) :
    ((removePublicTag pt t).map Prod.fst).Nodup := by
  induction pt with
  | nil => simp [removePublicTag]
  | cons q rest ih =>
      obtain ⟨v, n⟩ := q
      simp only [List.map_cons, List.nodup_cons] at h
      by_cases hv : v = t
      · subst hv
        rw [removePublicTag, if_pos rfl]
        by_cases hn : n - 1 = 0
        · rw [if_pos hn]
          exact h.2
        · rw [if_neg hn]
          simp only [List.map_cons, List.nodup_cons]
          exact h
      · rw [removePublicTag, if_neg hv]
        simp only [List.map_cons, List.nodup_cons]
        exact ⟨fun hm => h.1 (removePublicTag_keys_sub rest t v hm),
          ih h.2⟩

theorem mem_keys_iff_refcount_pos (pt : List (Tag × ℕ))
    (hpos : ∀ p ∈ pt, 0 < p.2) (T : Tag) :
    T ∈ pt.map Prod.fst ↔ 0 < tagRefcount pt T := by
  induction pt with
  | nil => simp [tagRefcount]
  | cons q rest ih =>
      obtain ⟨v, n⟩ := q
      by_cases hv : v = T
      · subst hv
        simp only [List.map_cons, List.mem_cons, tagRefcount, if_pos rfl]
        exact iff_of_true (by simp) (hpos _ (List.mem_cons_self _ _))
      · simp only [List.map_cons, List.mem_cons, tagRefcount, if_neg hv]
        rw [← ih (fun q hq => hpos q (by simp [hq]))]
        simp [Ne.symm hv]

theorem count_nodup {α : Type} [DecidableEq α] (l : List α)
    (hnd : l.Nodup) (a : α) :
    l.count a = if a ∈ l then 1 else 0 := by
  induction l with
  | nil => simp
  | cons b l ih =>
      rw [List.nodup_cons] at hnd
      by_cases hab : a = b
      · subst hab
        rw [List.count_cons_self]
        have hz : l.count a = 0 := List.count_eq_zero.mpr hnd.1
        simp [hz]
      · rw [List.count_cons_of_ne hab, ih hnd.2]
        simp [hab]

theorem tagAux_eq_pub_iff (ta : TagAux) (T : Tag) :
    ta = (⟨T, TagVisibility.pub⟩ : TagAux) ↔
      (ta.isPublic = true ∧ ta.name = T) := by
  obtain ⟨nm, vis⟩ := ta
  cases vis <;> simp [TagAux.isPublic, TagAux.mk.injEq, and_comm]

theorem refcount_fold_add :
    ∀ (l : List TagAux) (pt : List (Tag × ℕ)) (T : Tag),
      tagRefcount (l.foldl (fun pt ta =>
          if ta.isPublic then addPublicTag pt ta.name else pt) pt) T =
        tagRefcount pt T + l.count (⟨T, TagVisibility.pub⟩ : TagAux)
  | [], pt, T => by simp
  | ta :: rest, pt, T => by
      rw [List.foldl_cons, List.count_cons]
      simp only [beq_iff_eq]
      by_cases hp : ta.isPublic
      · rw [if_pos hp, refcount_fold_add rest, tagRefcount_addPublicTag]
        have hiff : (T = ta.name) ↔
            (ta = (⟨T, TagVisibility.pub⟩ : TagAux)) := by
          rw [tagAux_eq_pub_iff]
          exact ⟨fun h => ⟨hp, h.symm⟩, fun h => h.2.symm⟩
        rw [if_congr hiff rfl rfl]
        omega
      · rw [if_neg hp, refcount_fold_add rest]
        have hne : ¬ (ta = (⟨T, TagVisibility.pub⟩ : TagAux)) := fun h =>
          hp ((tagAux_eq_pub_iff ta T).mp h).1
        rw [if_neg hne]
        omega

theorem refcount_fold_sub :
    ∀ (l : List TagAux) (pt : List (Tag × ℕ)) (T : Tag),
      (pt.map Prod.fst).Nodup →
      tagRefcount (l.foldl (fun pt ta =>
          if ta.isPublic then removePublicTag pt ta.name else pt) pt) T =
        tagRefcount pt T - l.count (⟨T, TagVisibility.pub⟩ : TagAux)
  | [], pt, T, _ => by simp
  | ta :: rest, pt, T, h => by
      rw [List.foldl_cons, List.count_cons]
      simp only [beq_iff_eq]
      by_cases hp : ta.isPublic
      · rw [if_pos hp, refcount_fold_sub rest _ _
            (removePublicTag_nodup pt ta.name h),
          tagRefcount_removePublicTag pt ta.name T h]
        have hiff : (T = ta.name) ↔
            (ta = (⟨T, TagVisibility.pub⟩ : TagAux)) := by
          rw [tagAux_eq_pub_iff]
          exact ⟨fun h2 => ⟨hp, h2.symm⟩, fun h2 => h2.2.symm⟩
        rw [if_congr hiff rfl rfl]
        omega
      · rw [if_neg hp, refcount_fold_sub rest _ _ h]
        have hne : ¬ (ta = (⟨T, TagVisibility.pub⟩ : TagAux)) := fun h2 =>
          hp ((tagAux_eq_pub_iff ta T).mp h2).1
        rw [if_neg hne]
        omega

theorem fold_add_pos_nodup :
    ∀ (l : List TagAux) (pt : List (Tag × ℕ)),
      (∀ p ∈ pt, 0 < p.2) → (pt.map Prod.fst).Nodup →
      (∀ p ∈ l.foldl (fun pt ta =>
          if ta.isPublic then addPublicTag pt ta.name else pt) pt,
        0 < p.2) ∧
      ((l.foldl (fun pt ta =>
          if ta.isPublic then addPublicTag pt ta.name else pt) pt).map
        Prod.fst).Nodup
  | [], pt, hpos, hnd => ⟨hpos, hnd⟩
  | ta :: rest, pt, hpos, hnd => by
      rw [List.foldl_cons]
      by_cases hp : ta.isPublic
      · rw [if_pos hp]
        exact fold_add_pos_nodup rest _
          (addPublicTag_pos pt ta.name hpos)
          (addPublicTag_nodup pt ta.name hnd)
      · rw [if_neg hp]
        exact fold_add_pos_nodup rest pt hpos hnd

theorem fold_sub_pos_nodup :
    ∀ (l : List TagAux) (pt : List (Tag × ℕ)),
      (∀ p ∈ pt, 0 < p.2) → (pt.map Prod.fst).Nodup →
      (∀ p ∈ l.foldl (fun pt ta =>
          if ta.isPublic then removePublicTag pt ta.name else pt) pt,
        0 < p.2) ∧
      ((l.foldl (fun pt ta =>
          if ta.isPublic then removePublicTag pt ta.name else pt) pt).map
        Prod.fst).Nodup
  | [], pt, hpos, hnd => ⟨hpos, hnd⟩
  | ta :: rest, pt, hpos, hnd => by
      rw [List.foldl_cons]
      by_cases hp : ta.isPublic
      · rw [if_pos hp]
        exact fold_sub_pos_nodup rest _
          (removePublicTag_pos pt ta.name hpos)
          (removePublicTag_nodup pt ta.name hnd)
      · rw [if_neg hp]
        exact fold_sub_pos_nodup rest pt hpos hnd

theorem not_mem_keys_of_lookup_none (l : List (SessionId × SessionS))
    (sid : SessionId) (h : lookupSession l sid = none) :
    sid ∉ l.map Prod.fst := by
  induction l with
  | nil => simp
  | cons p rest ih =>
      rw [lookupSession] at h
      by_cases hp : p.1 = sid
      · rw [if_pos hp] at h
        cases h
      · rw [if_neg hp] at h
        simp only [List.map_cons, List.mem_cons, not_or]
        exact ⟨fun he => hp he.symm, ih h⟩

theorem mapInsert_of_absent (l : List (SessionId × SessionS))
    (sid : SessionId) (s : SessionS)
    (h : lookupSession l sid = none) :
    mapInsert l sid s = l ++ [(sid, s)] := by
  induction l with
  | nil => rfl
  | cons p rest ih =>
      rw [lookupSession] at h
      by_cases hp : p.1 = sid
      · rw [if_pos hp] at h
        cases h
      · rw [if_neg hp] at h
        obtain ⟨k, v⟩ := p
        rw [mapInsert, if_neg hp, ih h]
        rfl

theorem lookup_mapInsert_ne (l : List (SessionId × SessionS))
    (sid sid2 : SessionId) (s : SessionS) (h : sid2 ≠ sid) :
    lookupSession (mapInsert l sid s) sid2 = lookupSession l sid2 := by
  induction l with
  | nil => simp [mapInsert, lookupSession, Ne.symm h]
  | cons p rest ih =>
      obtain ⟨k, v⟩ := p
      by_cases hk : k = sid
      · subst hk
        rw [mapInsert, if_pos rfl, lookupSession, lookupSession,
          if_neg (fun he : k = sid2 => h (he ▸ rfl)),
          if_neg (fun he : k = sid2 => h (he ▸ rfl))]
      · rw [mapInsert, if_neg hk]
        by_cases hk2 : k = sid2
        · rw [lookupSession, if_pos hk2, lookupSession, if_pos hk2]
        · rw [lookupSession, if_neg hk2, lookupSession, if_neg hk2, ih]

theorem lookup_mem (l : List (SessionId × SessionS)) (sid : SessionId)
    (s : SessionS) (h : lookupSession l sid = some s) : (sid, s) ∈ l := by
  induction l with
  | nil => cases h
  | cons p rest ih =>
      obtain ⟨k, v⟩ := p
      rw [lookupSession] at h
      by_cases hp : k = sid
      · subst hp
        rw [if_pos rfl] at h
        cases h
        exact List.mem_cons_self _ _
      · rw [if_neg hp] at h
        exact List.mem_cons_of_mem _ (ih h)

theorem filter_length_mapRemove (l : List (SessionId × SessionS))
    (sid : SessionId) (s : SessionS) (P : SessionId × SessionS → Bool)
    (h : lookupSession l sid = some s) :
    ((mapRemove l sid).filter P).length +
      (if P (sid, s) then 1 else 0) = (l.filter P).length := by
  induction l with
  | nil => cases h
  | cons p rest ih =>
      obtain ⟨k, v⟩ := p
      rw [lookupSession] at h
      by_cases hk : k = sid
      · subst hk
        rw [if_pos rfl] at h
        cases h
        rw [mapRemove, if_pos rfl, List.filter_cons]
        by_cases hP : P (k, s)
        · simp [hP]
        · simp [hP]
      · rw [if_neg hk] at h
        rw [mapRemove, if_neg hk, List.filter_cons, List.filter_cons]
        by_cases hP : P (k, v)
        · have h2 := ih h
          simp only [hP, if_pos, List.length_cons]
          omega
        · simpa [hP] using ih h

theorem filter_length_mapInsert_found (l : List (SessionId × SessionS))
    (sid : SessionId) (s s2 : SessionS) (P : SessionId × SessionS → Bool)
    (h : lookupSession l sid = some s) (hP : P (sid, s2) = P (sid, s)) :
    ((mapInsert l sid s2).filter P).length = (l.filter P).length := by
  induction l with
  | nil => cases h
  | cons p rest ih =>
      obtain ⟨k, v⟩ := p
      rw [lookupSession] at h
      by_cases hk : k = sid
      · subst hk
        rw [if_pos rfl] at h
        cases h
        rw [mapInsert, if_pos rfl, List.filter_cons, List.filter_cons,
          hP]
        by_cases hPv : P (k, s)
        · simp [hPv]
        · simp [hPv]
      · rw [if_neg hk] at h
        rw [mapInsert, if_neg hk, List.filter_cons, List.filter_cons]
        by_cases hPv : P (k, v)
        · simp only [hPv, if_pos, List.length_cons, ih h]
        · simpa [hPv] using ih h

theorem mapRemove_keys_sub (l : List (SessionId × SessionS))
    (sid : SessionId) :
    ∀ u ∈ (mapRemove l sid).map Prod.fst, u ∈ l.map Prod.fst := by
  induction l with
  | nil => simp [mapRemove]
  | cons p rest ih =>
      obtain ⟨k, v⟩ := p
      by_cases hk : k = sid
      · rw [mapRemove, if_pos hk]
        intro u hu
        simp only [List.map_cons, List.mem_cons]
        exact Or.inr hu
      · rw [mapRemove, if_neg hk]
        intro u hu
        simp only [List.map_cons, List.mem_cons] at hu ⊢
        rcases hu with rfl | hu
        · exact Or.inl rfl
        · exact Or.inr (ih u hu)

theorem mapRemove_keys_nodup (l : List (SessionId × SessionS))
    (sid : SessionId) (h : (l.map Prod.fst).Nodup) :
    ((mapRemove l sid).map Prod.fst).Nodup := by
  induction l with
  | nil => simp [mapRemove]
  | cons p rest ih =>
      obtain ⟨k, v⟩ := p
      simp only [List.map_cons, List.nodup_cons] at h
      by_cases hk : k = sid
      · rw [mapRemove, if_pos hk]
        exact h.2
      · rw [mapRemove, if_neg hk]
        simp only [List.map_cons, List.nodup_cons]
        exact ⟨fun hm => h.1 (mapRemove_keys_sub rest sid k hm), ih h.2⟩

theorem mapInsert_keys_of_found (l : List (SessionId × SessionS))
    (sid : SessionId) (s s2 : SessionS)
    (h : lookupSession l sid = some s) :
    (mapInsert l sid s2).map Prod.fst = l.map Prod.fst := by
  induction l with
  | nil => cases h
  | cons p rest ih =>
      obtain ⟨k, v⟩ := p
      rw [lookupSession] at h
      by_cases hk : k = sid
      · rw [if_pos hk] at h
        rw [mapInsert, if_pos hk]
        rfl
      · rw [if_neg hk] at h
        rw [mapInsert, if_neg hk, List.map_cons, List.map_cons, ih h]

theorem mem_mapRemove (l : List (SessionId × SessionS)) (sid : SessionId) :
    ∀ p ∈ mapRemove l sid, p ∈ l := by
  induction l with
  | nil => simp [mapRemove]
  | cons q rest ih =>
      obtain ⟨k, v⟩ := q
      by_cases hk : k = sid
      · rw [mapRemove, if_pos hk]
        exact fun p hp => List.mem_cons_of_mem _ hp
      · rw [mapRemove, if_neg hk]
        intro p hp
        rcases List.mem_cons.mp hp with rfl | hp
        · exact List.mem_cons_self _ _
        · exact List.mem_cons_of_mem _ (ih p hp)

theorem mem_mapInsert (l : List (SessionId × SessionS)) (sid : SessionId)
    (s : SessionS) :
    ∀ p ∈ mapInsert l sid s, p ∈ l ∨ p = (sid, s) := by
  induction l with
  | nil => simp [mapInsert]
  | cons q rest ih =>
      obtain ⟨k, v⟩ := q
      by_cases hk : k = sid
      · rw [mapInsert, if_pos hk]
        intro p hp
        rcases List.mem_cons.mp hp with rfl | hp
        · exact Or.inr (by rw [hk])
        · exact Or.inl (List.mem_cons_of_mem _ hp)
      · rw [mapInsert, if_neg hk]
        intro p hp
        rcases List.mem_cons.mp hp with rfl | hp
        · exact Or.inl (List.mem_cons_self _ _)
        · rcases ih p hp with h2 | h2
          · exact Or.inl (List.mem_cons_of_mem _ h2)
          · exact Or.inr h2

theorem refcount_addForSession (pt : List (Tag × ℕ)) (s : SessionS)
    (T : Tag) :
    tagRefcount (addPublicTagsForSession pt s) T =
      tagRefcount pt T +
        s.tags.count (⟨T, TagVisibility.pub⟩ : TagAux) :=
  refcount_fold_add s.tags pt T

theorem refcount_removeForSession (pt : List (Tag × ℕ)) (s : SessionS)
    (T : Tag) (hk : (pt.map Prod.fst).Nodup) :
    tagRefcount (removePublicTagsForSession pt s) T =
      tagRefcount pt T -
        s.tags.count (⟨T, TagVisibility.pub⟩ : TagAux) :=
  refcount_fold_sub s.tags pt T hk

theorem pubInv_insert (sess : List (SessionId × SessionS))
    (pt : List (Tag × ℕ)) (d : Tag) (sid : SessionId) (s : SessionS)
    (h : PubInv sess pt d) (habs : lookupSession sess sid = none)
    (hnd : s.tags.Nodup) :
    PubInv (mapInsert sess sid s) (addPublicTagsForSession pt s) d := by
  obtain ⟨hpos, hk, hsk, hstags, hA⟩ := h
  have hfold := fold_add_pos_nodup s.tags pt hpos hk
  rw [mapInsert_of_absent sess sid s habs]
  refine ⟨hfold.1, hfold.2, ?_, ?_, ?_⟩
  · simp only [List.map_append, List.map_cons, List.map_nil]
    rw [List.nodup_append]
    refine ⟨hsk, by simp, fun y hy hy2 => ?_⟩
    rcases List.mem_cons.mp hy2 with rfl | h3
    · exact not_mem_keys_of_lookup_none sess y habs hy
    · cases h3
  · intro p hp
    rcases List.mem_append.mp hp with hp | hp
    · exact hstags p hp
    · rcases List.mem_cons.mp hp with rfl | h3
      · exact hnd
      · cases h3
  · intro T
    rw [refcount_addForSession, hA T, count_nodup s.tags hnd,
      List.filter_append, List.length_append, List.filter_cons]
    by_cases hm : (⟨T, TagVisibility.pub⟩ : TagAux) ∈ s.tags
    · simp [hm]
      omega
    · simp [hm]

theorem pubInv_remove (sess : List (SessionId × SessionS))
    (pt : List (Tag × ℕ)) (d : Tag) (sid : SessionId) (s : SessionS)
    (h : PubInv sess pt d) (hfound : lookupSession sess sid = some s) :
    PubInv (mapRemove sess sid) (removePublicTagsForSession pt s) d := by
  obtain ⟨hpos, hk, hsk, hstags, hA⟩ := h
  have hstag : s.tags.Nodup := hstags (sid, s) (lookup_mem _ _ _ hfound)
  have hfold := fold_sub_pos_nodup s.tags pt hpos hk
  refine ⟨hfold.1, hfold.2, mapRemove_keys_nodup _ _ hsk,
    fun p hp => hstags p (mem_mapRemove _ _ p hp), ?_⟩
  intro T
  have hflt := filter_length_mapRemove sess sid s
    (fun p => decide ((⟨T, TagVisibility.pub⟩ : TagAux) ∈ p.2.tags))
    hfound
  rw [refcount_removeForSession pt s T hk, hA T,
    count_nodup s.tags hstag]
  by_cases hm : (⟨T, TagVisibility.pub⟩ : TagAux) ∈ s.tags
  · simp [hm] at hflt ⊢
    omega
  · simp [hm] at hflt ⊢
    omega

theorem pubInv_replace (sess : List (SessionId × SessionS))
    (pt : List (Tag × ℕ)) (d : Tag) (sid : SessionId) (s s2 : SessionS)
    (h : PubInv sess pt d) (hfound : lookupSession sess sid = some s)
    (htags : s2.tags = s.tags) :
    PubInv (mapInsert sess sid s2) pt d := by
  obtain ⟨hpos, hk, hsk, hstags, hA⟩ := h
  refine ⟨hpos, hk, ?_, ?_, ?_⟩
  · rw [mapInsert_keys_of_found sess sid s s2 hfound]
    exact hsk
  · intro p hp
    rcases mem_mapInsert sess sid s2 p hp with hp | rfl
    · exact hstags p hp
    · show s2.tags.Nodup
      rw [htags]
      exact hstags (sid, s) (lookup_mem _ _ _ hfound)
  · intro T
    rw [hA T, filter_length_mapInsert_found sess sid s s2 _ hfound
      (by rw [show ((sid, s2) : SessionId × SessionS).2.tags = s2.tags
        from rfl, show ((sid, s) : SessionId × SessionS).2.tags = s.tags
        from rfl, htags])]

theorem addDataExpiration_tags (de : List (ℚ × SessionId)) (s : SessionS) :
    (addDataExpiration de s).2.tags = s.tags := by
  rw [addDataExpiration]
  rcases s.maxPointAge with _ | age
  · rfl
  · by_cases ha : s.addedToExpiration
    · simp [ha]
    · simp only [ha, if_neg, Bool.false_eq_true, not_false_iff, if_false]
      rcases s.locations.head? with _ | front <;> rfl

theorem addSession_state (st : StateS) (expiresAt : ℚ)
    (tagsAux : List TagAux) (opts : Options) (sid : SessionId)
    (nowStamp : ℚ) :
    (addSession st expiresAt tagsAux opts sid nowStamp).1 =
      { st with
        nextFetchId := (st.nextFetchId + 1) % 2 ^ 32,
        sessionExpirations :=
          ((newSessionOf st expiresAt tagsAux opts sid).expiresAt,
           (newSessionOf st expiresAt tagsAux opts sid).sessionId) ::
            st.sessionExpirations,
        sessions :=
          mapInsert st.sessions sid
            (newSessionOf st expiresAt tagsAux opts sid),
        publicTags :=
          addPublicTagsForSession st.publicTags
            (newSessionOf st expiresAt tagsAux opts sid) } := rfl

theorem removeSession_state (st : StateS) (sid : SessionId)
    (nowStamp : ℚ) :
    (removeSession st sid nowStamp).1 =
      (match lookupSession st.sessions sid with
       | none => st
       | some s =>
           { st with sessions := mapRemove st.sessions sid,
                     publicTags :=
                       removePublicTagsForSession st.publicTags s }) := by
  rw [removeSession]
  rcases lookupSession st.sessions sid with _ | s <;> rfl

theorem pubInv_removeSession (st : StateS) (sid : SessionId)
    (nowStamp : ℚ)
    (h : PubInv st.sessions st.publicTags st.defaultTag) :
    PubInv (removeSession st sid nowStamp).1.sessions
      (removeSession st sid nowStamp).1.publicTags
      (removeSession st sid nowStamp).1.defaultTag := by
  rw [removeSession_state]
  rcases hl : lookupSession st.sessions sid with _ | s
  · exact h
  · exact pubInv_remove st.sessions st.publicTags st.defaultTag sid s h hl

theorem pubInv_loadLoop (now : ℚ) :
    ∀ (db : List DbSession) (st : StateS) (hi : ℕ),
      PubInv st.sessions st.publicTags st.defaultTag →
      (db.map DbSession.sessionId).Nodup →
      (∀ d ∈ db, d.tags.Nodup) →
      (∀ d ∈ db, lookupSession st.sessions d.sessionId = none) →
      PubInv (loadLoop now db st hi).1.sessions
        (loadLoop now db st hi).1.publicTags
        (loadLoop now db st hi).1.defaultTag
  | [], st, hi, h, _, _, _ => h
  | d :: rest, st, hi, h, hids, htags, habs => by
      simp only [List.map_cons, List.nodup_cons] at hids
      by_cases hl : now < d.expiresAt
      · rw [loadLoop, if_pos hl]
        refine pubInv_loadLoop now rest _ _ ?_ hids.2
          (fun d2 h2 => htags d2 (by simp [h2])) ?_
        · exact pubInv_insert st.sessions st.publicTags st.defaultTag
            d.sessionId (dbToSession d) h
            (habs d (by simp)) (htags d (by simp))
        · intro d2 h2
          show lookupSession
            (mapInsert st.sessions d.sessionId (dbToSession d))
            d2.sessionId = none
          rw [lookup_mapInsert_ne st.sessions d.sessionId d2.sessionId
            (dbToSession d) (fun he => hids.1 (he ▸
              List.mem_map_of_mem DbSession.sessionId h2))]
          exact habs d2 (by simp [h2])
      · rw [loadLoop, if_neg hl]
        have hrec := pubInv_loadLoop now rest st hi h hids.2
          (fun d2 h2 => htags d2 (by simp [h2]))
          (fun d2 h2 => habs d2 (by simp [h2]))
        rcases hh : loadLoop now rest st hi with ⟨stF, hiF, dels⟩
        rw [hh] at hrec
        exact hrec

theorem expireData_state (st : StateS) (sid : SessionId) (now : ℚ)
    (s : SessionS) (hl : lookupSession st.sessions sid = some s) :
    expireData st sid now =
      (match s.maxPointAge with
       | none => st
       | some age =>
           let kept := s.locations.dropWhile fun l =>
             decide (l.time < now - age)
           let s1 : SessionS :=
             { s with
               locations := kept
               addedToExpiration :=
                 if kept.length = s.locations.length then
                   s.addedToExpiration
                 else false }
           { st with
             sessions :=
               mapInsert st.sessions sid
                 (addDataExpiration st.dataExpirations s1).2,
             dataExpirations :=
               (addDataExpiration st.dataExpirations s1).1 }) := by
  rw [expireData, hl]

theorem pubInv_reachable (cfg : Config) (st : StateS)
    (h : Reachable cfg st) :
    PubInv st.sessions st.publicTags st.defaultTag := by
  induction h with
  | init db now hids htags =>
      have hbase : PubInv
          (({ baseState cfg with
              publicTags := addPublicTag [] cfg.defaultTag } :
            StateS)).sessions
          (({ baseState cfg with
              publicTags := addPublicTag [] cfg.defaultTag } :
            StateS)).publicTags
          (({ baseState cfg with
              publicTags := addPublicTag [] cfg.defaultTag } :
            StateS)).defaultTag := by
        refine ⟨by simp [addPublicTag, baseState], ?_, by simp [baseState],
          by simp [baseState], ?_⟩
        · simp [addPublicTag, baseState]
        · intro T
          show tagRefcount [(cfg.defaultTag, 1)] T = _
          rw [tagRefcount]
          by_cases hT : cfg.defaultTag = T
          · simp [baseState, hT]
          · simp [baseState, hT, Ne.symm hT, tagRefcount]
      have hload := pubInv_loadLoop now db
        { baseState cfg with
          publicTags := addPublicTag [] cfg.defaultTag } 0 hbase hids
        htags (fun d _ => rfl)
      rw [initState, loadStateF]
      rcases hh : loadLoop now db
        { baseState cfg with
          publicTags := addPublicTag [] cfg.defaultTag } 0 with
        ⟨stF, hiF, dels⟩
      rw [hh] at hload
      exact hload
  | create expiresAt tagsAux opts sid nowStamp hfresh htags hr ih =>
      rename_i st2
      have hnd :
          (newSessionOf st2 expiresAt tagsAux opts sid).tags.Nodup := by
        rw [newSessionOf]
        by_cases he : tagsAux = []
        · simp [he]
        · simpa [he] using htags
      rw [addSession_state]
      exact pubInv_insert st2.sessions st2.publicTags st2.defaultTag sid
        (newSessionOf st2 expiresAt tagsAux opts sid) ih hfresh hnd
  | stop sid nowStamp hr ih =>
      exact pubInv_removeSession _ sid _ ih
  | reqStop sid nowStamp hr ih =>
      rename_i st2
      rw [requestRemoveSession]
      rcases hl : lookupSession st2.sessions sid with _ | s
      · exact ih
      · by_cases hn : s.noStop
        · simp only [hn, if_pos, if_true]
          exact pubInv_replace _ _ _ sid s _ ih hl rfl
        · simp only [hn, Bool.false_eq_true, if_neg, not_false_iff,
            if_false]
          exact pubInv_removeSession _ sid _ ih
  | post d now nowStamp hr ih =>
      rename_i st2
      rw [addLocation]
      rcases hl : lookupSession st2.sessions d.sessionId with _ | s
      · exact ih
      · by_cases hrj : s.rejectData
        · simp only [hrj, if_pos, if_true]
          exact ih
        · simp only [hrj, Bool.false_eq_true, if_neg, not_false_iff,
            if_false]
          by_cases he : s.expiresAt < now
          · simp only [he, if_true]
            rcases hrm : removeSession st2 d.sessionId nowStamp with
              ⟨st3, eff⟩
            have := pubInv_removeSession st2 d.sessionId nowStamp ih
            rw [hrm] at this
            exact this
          · simp only [he, if_false]
            refine pubInv_replace _ _ _ d.sessionId s _ ih hl ?_
            rw [addDataExpiration_tags]
  | expireSession sid nowStamp hr ih =>
      exact pubInv_removeSession _ sid _ ih
  | expDataStep sid now hr ih =>
      rename_i st2
      rcases hl : lookupSession st2.sessions sid with _ | s
      · rw [expireData, hl]
        exact ih
      · rw [expireData_state st2 sid now s hl]
        rcases ha : s.maxPointAge with _ | age
        · exact ih
        · refine pubInv_replace _ _ _ sid s _ ih hl ?_
          rw [addDataExpiration_tags]

/-- C4 counterexample: a freshly started state with zero live sessions does
not have an empty `public_tags()` — `State::new` registers the configured
default tag once before any session exists. -/
theorem zero_sessions_public_tags_nonempty :
    (initState exCfg [] 0).sessions = [] ∧
    (initState exCfg [] 0).publicTagList = [⟨"duck"⟩] ∧
    tagRefcount (initState exCfg [] 0).publicTags ⟨"duck"⟩ = 1 ∧
    liveCount (initState exCfg [] 0) ⟨"duck"⟩ = 0 :=
  ⟨rfl, rfl, rfl, rfl⟩

/-- C4 (amended): in every reachable state, a tag `T` is listed in
`public_tags()` iff `T` is the configured default tag or at least one live
session carries `T` with public visibility, and `T`'s refcount equals the
number of such live sessions plus one standing reference when `T` is the
default tag (registered once at startup and never released).  With zero
live sessions, `public_tags()` is exactly the default tag. -/
theorem public_tags_iff_refcount (cfg : Config) (st : StateS)
    (h : Reachable cfg st) (T : Tag) :
    (T ∈ st.publicTagList ↔ (T = st.defaultTag ∨ 0 < liveCount st T)) ∧
    tagRefcount st.publicTags T =
      liveCount st T + (if T = st.defaultTag then 1 else 0) := by
  obtain ⟨hpos, _, _, _, hA⟩ := pubInv_reachable cfg st h
  have hAT : tagRefcount st.publicTags T =
      liveCount st T + (if T = st.defaultTag then 1 else 0) := hA T
  refine ⟨?_, hAT⟩
  rw [StateS.publicTagList, mem_keys_iff_refcount_pos _ hpos, hAT]
  by_cases hT : T = st.defaultTag
  · simp [hT]
  · simp [hT]

/-- C4 witness: the start state, queried at the default tag. -/
theorem public_tags_iff_refcount_witness :
    ((⟨"duck"⟩ : Tag) ∈ (initState exCfg [] 0).publicTagList ↔
      ((⟨"duck"⟩ : Tag) = (initState exCfg [] 0).defaultTag ∨
        0 < liveCount (initState exCfg [] 0) ⟨"duck"⟩)) ∧
    tagRefcount (initState exCfg [] 0).publicTags ⟨"duck"⟩ =
      liveCount (initState exCfg [] 0) ⟨"duck"⟩ +
        (if (⟨"duck"⟩ : Tag) = (initState exCfg [] 0).defaultTag then 1
         else 0) :=
  public_tags_iff_refcount exCfg (initState exCfg [] 0)
    (Reachable.init [] 0 (by simp) (by simp)) ⟨"duck"⟩

/-! ## C8: the share-id round trip -/

theorem mem_of_mem_rustTrim (l : List Char) (c : Char)
    (h : c ∈ rustTrim l) : c ∈ l := by
  rw [rustTrim] at h
  have h1 := List.mem_reverse.mp h
  have h2 := (List.dropWhile_sublist rustIsWhitespace).subset h1
  have h3 := List.mem_reverse.mp h2
  exact (List.dropWhile_sublist rustIsWhitespace).subset h3

theorem splitOnceChar_mem (sep : Char) :
    ∀ (l kw v : List Char), splitOnceChar sep l = some (kw, v) →
      (∀ c ∈ kw, c ∈ l) ∧ ∀ c ∈ v, c ∈ l := by
  intro l
  induction l with
  | nil => intro kw v h; cases h
  | cons a l2 ih =>
      intro kw v h
      rw [splitOnceChar] at h
      by_cases ha : a = sep
      · rw [if_pos ha] at h
        cases h
        exact ⟨by simp, fun c hc => by simp [hc]⟩
      · rw [if_neg ha] at h
        rcases h3 : splitOnceChar sep l2 with _ | ⟨kw2, v2⟩
        · rw [h3] at h
          cases h
        · rw [h3] at h
          cases h
          obtain ⟨hk, hv⟩ := ih kw2 v2 h3
          refine ⟨?_, fun c hc => by simp [hv c hc]⟩
          intro c hc
          rcases List.mem_cons.mp hc with rfl | hc2
          · simp
          · simp [hk c hc2]

theorem tagNew_some_spec (isAlnum : Char → Bool) (l n : List Char)
    (h : tagNew isAlnum l = some n) :
    n ≠ [] ∧ (∀ c ∈ n, (isAlnum c || c = '-' || c = '_') = true) ∧
    ∀ c ∈ n, c ∈ l := by
  rw [tagNew] at h
  by_cases he : (rustTrim l).isEmpty
  · rw [if_pos he] at h
    cases h
  · rw [if_neg he] at h
    by_cases ha : (rustTrim l).all fun c => isAlnum c || c = '-' || c = '_'
    · rw [if_pos ha] at h
      cases h
      refine ⟨by simpa using he, ?_, fun c hc => mem_of_mem_rustTrim l c hc⟩
      intro c hc
      exact List.all_eq_true.mp ha c hc
    · rw [if_neg ha] at h
      cases h

theorem rustTrim_eq_self (l : List Char)
    (h : ∀ c ∈ l, rustIsWhitespace c = false) : rustTrim l = l := by
  have hd : ∀ (m : List Char), (∀ c ∈ m, rustIsWhitespace c = false) →
      m.dropWhile rustIsWhitespace = m := by
    intro m hm
    cases m with
    | nil => rfl
    | cons c m2 =>
        rw [List.dropWhile_cons, hm c (by simp)]
        simp
  rw [rustTrim, hd l h, hd l.reverse (fun c hc =>
    h c (List.mem_reverse.mp hc)), List.reverse_reverse]

theorem insertTagAux_nodup (l : List TagAux) (t : TagAux)
    (h : l.Nodup) : (insertTagAux l t).Nodup := by
  rw [insertTagAux]
  by_cases hm : t ∈ l
  · simpa [hm] using h
  · rw [if_neg hm]
    simp only [List.nodup_append, List.nodup_cons, List.nodup_nil]
    exact ⟨h, ⟨by simp, by simp⟩, fun y hy hy2 => by
      rcases List.mem_cons.mp hy2 with rfl | h3
      · exact hm hy
      · cases h3⟩

theorem mem_insertTagAux (l : List TagAux) (t : TagAux) :
    ∀ x ∈ insertTagAux l t, x ∈ l ∨ x = t := by
  rw [insertTagAux]
  by_cases hm : t ∈ l
  · rw [if_pos hm]
    exact fun x hx => Or.inl hx
  · rw [if_neg hm]
    intro x hx
    rcases List.mem_append.mp hx with hx | hx
    · exact Or.inl hx
    · rcases List.mem_cons.mp hx with rfl | h3
      · exact Or.inr rfl
      · cases h3

theorem parseFields_tags_inv (isAlnum : Char → Bool) :
    ∀ (fields : List (List Char)) (acc : List TagAux) (opts : Options)
      (tags : List TagAux) (opts2 : Options),
      parseFields isAlnum fields acc opts = some (tags, opts2) →
      acc.Nodup → (∀ ta ∈ acc, ValidTagAux isAlnum ta) →
      (∀ f ∈ fields, ∀ c ∈ f, rustIsWhitespace c = false) →
      tags.Nodup ∧ ∀ ta ∈ tags, ValidTagAux isAlnum ta := by
  intro fields
  induction fields with
  | nil =>
      intro acc opts tags opts2 h hnd hval _
      rw [parseFields] at h
      cases h
      exact ⟨hnd, hval⟩
  | cons f fs ih =>
      intro acc opts tags opts2 h hnd hval hws
      have hws2 : ∀ f2 ∈ fs, ∀ c ∈ f2, rustIsWhitespace c = false :=
        fun f2 h2 => hws f2 (by simp [h2])
      have hwsf : ∀ c ∈ f, rustIsWhitespace c = false :=
        hws f (by simp)
      rw [parseFields] at h
      by_cases hfe : f.isEmpty
      · rw [if_pos hfe] at h
        exact ih acc opts tags opts2 h hnd hval hws2
      · rw [if_neg hfe] at h
        have hstep : ∀ (nm : List Char) (vis : TagVisibility)
            (opts3 : Options), (∀ c ∈ nm, c ∈ f) → nm ≠ [] →
            (∀ c ∈ nm, (isAlnum c || c = '-' || c = '_') = true) →
            parseFields isAlnum fs
              (insertTagAux acc ⟨⟨⟨nm⟩⟩, vis⟩) opts3 =
              some (tags, opts2) →
            tags.Nodup ∧ ∀ ta ∈ tags, ValidTagAux isAlnum ta := by
          intro nm vis opts3 hsub hne hok h2
          refine ih _ opts3 tags opts2 h2
            (insertTagAux_nodup acc _ hnd) ?_ hws2
          intro ta hta
          rcases mem_insertTagAux acc _ ta hta with hta | rfl
          · exact hval ta hta
          · exact ⟨hne, hok, fun c hc => hwsf c (hsub c hc)⟩
        rcases hsp : splitOnceChar ':' f with _ | ⟨kw, v⟩
        · rw [hsp] at h
          simp only [] at h
          by_cases h1 : f = "nostop".toList
          · rw [if_pos h1] at h
            exact ih acc _ tags opts2 h hnd hval hws2
          · rw [if_neg h1] at h
            by_cases h2 : f = "log".toList
            · rw [if_pos h2] at h
              exact ih acc _ tags opts2 h hnd hval hws2
            · rw [if_neg h2] at h
              rcases htn : tagNew isAlnum f with _ | nm
              · rw [htn] at h
                cases h
              · rw [htn] at h
                obtain ⟨hne, hok, hsub⟩ :=
                  tagNew_some_spec isAlnum f nm htn
                exact hstep nm TagVisibility.priv opts hsub hne hok h
        · rw [hsp] at h
          simp only [] at h
          have hvsub : ∀ c ∈ v, c ∈ f := (splitOnceChar_mem ':' f kw v hsp).2
          by_cases h1 : kw = "pub".toList ∨ kw = "public".toList
          · rw [if_pos (by simpa using h1)] at h
            rcases htn : tagNew isAlnum v with _ | nm
            · rw [htn] at h
              cases h
            · rw [htn] at h
              obtain ⟨hne, hok, hsub⟩ := tagNew_some_spec isAlnum v nm htn
              exact hstep nm TagVisibility.pub opts
                (fun c hc => hvsub c (hsub c hc)) hne hok h
          · rw [if_neg (by simpa using h1)] at h
            by_cases h2 : kw = "priv".toList ∨ kw = "private".toList
            · rw [if_pos (by simpa using h2)] at h
              rcases htn : tagNew isAlnum v with _ | nm
              · rw [htn] at h
                cases h
              · rw [htn] at h
                obtain ⟨hne, hok, hsub⟩ :=
                  tagNew_some_spec isAlnum v nm htn
                exact hstep nm TagVisibility.priv opts
                  (fun c hc => hvsub c (hsub c hc)) hne hok h
            · rw [if_neg (by simpa using h2)] at h
              by_cases h3 : kw = "points".toList
              · rw [if_pos h3] at h
                rcases hpu : parseUsize v with _ | n
                · rw [hpu] at h
                  cases h
                · rw [hpu] at h
                  exact ih acc _ tags opts2 h hnd hval hws2
              · rw [if_neg h3] at h
                by_cases h4 : kw = "expire".toList
                · rw [if_pos h4] at h
                  rcases hpt : parseTimedelta v with _ | q
                  · rw [hpt] at h
                    cases h
                  · rw [hpt] at h
                    exact ih acc _ tags opts2 h hnd hval hws2
                · rw [if_neg h4] at h
                  by_cases h5 : kw = "name".toList
                  · rw [if_pos h5] at h
                    exact ih acc _ tags opts2 h hnd hval hws2
                  · rw [if_neg h5] at h
                    by_cases h6 : kw = "log".toList
                    · rw [if_pos h6] at h
                      by_cases h7 : v = "name".toList
                      · rw [if_pos h7] at h
                        exact ih acc _ tags opts2 h hnd hval hws2
                      · rw [if_neg h7] at h
                        cases h
                    · rw [if_neg h6] at h
                      cases h

theorem splitOnChar_subset (sep : Char) :
    ∀ (l : List Char), ∀ f ∈ splitOnChar sep l, ∀ c ∈ f, c ∈ l := by
  intro l
  induction l with
  | nil =>
      intro f hf c hc
      rw [splitOnChar] at hf
      rcases List.mem_cons.mp hf with rfl | h2
      · cases hc
      · cases h2
  | cons a l2 ih =>
      intro f hf c hc
      rw [splitOnChar] at hf
      by_cases ha : a = sep
      · rw [if_pos ha] at hf
        rcases List.mem_cons.mp hf with rfl | h2
        · cases hc
        · exact List.mem_cons_of_mem a (ih f h2 c hc)
      · rw [if_neg ha] at hf
        rcases h3 : splitOnChar sep l2 with _ | ⟨f2, fs2⟩
        · rw [h3] at hf
          simp only [] at hf
          rcases List.mem_cons.mp hf with rfl | h2
          · rcases List.mem_singleton.mp hc with rfl
            simp
          · cases h2
        · rw [h3] at hf
          simp only [] at hf
          rcases List.mem_cons.mp hf with rfl | h2
          · rcases List.mem_cons.mp hc with rfl | hc2
            · simp
            · exact List.mem_cons_of_mem a
                (ih f2 (h3 ▸ List.mem_cons_self f2 fs2) c hc2)
          · exact List.mem_cons_of_mem a
              (ih f (h3 ▸ List.mem_cons_of_mem f2 h2) c hc)

theorem parseShareId_tags_inv (isAlnum : Char → Bool) (s g : String)
    (tags : List TagAux) (opts : Options)
    (h : parseShareId isAlnum (some s) g = some (tags, opts)) :
    tags.Nodup ∧ ∀ ta ∈ tags, ValidTagAux isAlnum ta := by
  rw [parseShareId] at h
  refine parseFields_tags_inv isAlnum _ [] Options.default tags opts h
    (by simp) (by simp) ?_
  intro f hf c hc
  have hmem := splitOnChar_subset ',' (stripWs s.data) f hf c hc
  rw [stripWs] at hmem
  have h2 := (List.mem_filter.mp hmem).2
  simpa using h2

theorem joinSep_single (sep : Char) (f : List Char) :
    joinSep sep [f] = f := rfl

theorem joinSep_pair (sep : Char) (f f2 : List Char)
    (fs : List (List Char)) :
    joinSep sep (f :: f2 :: fs) = f ++ sep :: joinSep sep (f2 :: fs) := rfl

theorem mem_joinSep (sep : Char) :
    ∀ (fields : List (List Char)), ∀ c ∈ joinSep sep fields,
      c = sep ∨ ∃ f ∈ fields, c ∈ f := by
  intro fields
  induction fields with
  | nil => intro c hc; cases hc
  | cons f fs ih =>
      intro c hc
      cases fs with
      | nil =>
          rw [joinSep_single] at hc
          exact Or.inr ⟨f, by simp, hc⟩
      | cons f2 fs2 =>
          rw [joinSep_pair] at hc
          rcases List.mem_append.mp hc with hc | hc
          · exact Or.inr ⟨f, by simp, hc⟩
          · rcases List.mem_cons.mp hc with rfl | hc2
            · exact Or.inl rfl
            · rcases ih c hc2 with h1 | ⟨g, hg, hcg⟩
              · exact Or.inl h1
              · exact Or.inr ⟨g, by simp [List.mem_cons.mp hg], hcg⟩

theorem splitOnChar_no_sep (sep : Char) :
    ∀ (f : List Char), sep ∉ f → splitOnChar sep f = [f] := by
  intro f
  induction f with
  | nil => intro _; rfl
  | cons a f2 ih =>
      intro h
      have ha : ¬ a = sep := fun hh => h (by rw [← hh]; exact List.mem_cons_self a f2)
      rw [splitOnChar, if_neg ha, ih (fun hm => h (List.mem_cons_of_mem a hm))]

theorem splitOnChar_append_sep (sep : Char) :
    ∀ (f r : List Char), sep ∉ f →
      splitOnChar sep (f ++ sep :: r) = f :: splitOnChar sep r := by
  intro f
  induction f with
  | nil =>
      intro r _
      rw [List.nil_append, splitOnChar, if_pos rfl]
  | cons a f2 ih =>
      intro r h
      have ha : ¬ a = sep := fun hh => h (by rw [← hh]; exact List.mem_cons_self a f2)
      rw [List.cons_append, splitOnChar, if_neg ha,
        ih r (fun hm => h (List.mem_cons_of_mem a hm))]

theorem splitOnChar_joinSep (sep : Char) :
    ∀ (fields : List (List Char)), fields ≠ [] →
      (∀ f ∈ fields, sep ∉ f) →
      splitOnChar sep (joinSep sep fields) = fields := by
  intro fields
  induction fields with
  | nil => intro h _; cases h rfl
  | cons f fs ih =>
      intro _ hns
      cases fs with
      | nil =>
          rw [joinSep_single]
          exact splitOnChar_no_sep sep f (hns f (by simp))
      | cons f2 fs2 =>
          rw [joinSep_pair, splitOnChar_append_sep sep f _ (hns f (by simp)),
            ih (by simp) (fun g hg => hns g (by simp [List.mem_cons.mp hg]))]

theorem splitOnceChar_append_sep (sep : Char) :
    ∀ (p r : List Char), sep ∉ p →
      splitOnceChar sep (p ++ sep :: r) = some (p, r) := by
  intro p
  induction p with
  | nil =>
      intro r _
      rw [List.nil_append, splitOnceChar, if_pos rfl]
  | cons a p2 ih =>
      intro r h
      have ha : ¬ a = sep := fun hh => h (by rw [← hh]; exact List.mem_cons_self a p2)
      rw [List.cons_append, splitOnceChar, if_neg ha,
        ih r (fun hm => h (List.mem_cons_of_mem a hm))]
      rfl

theorem tagNew_of_valid (isAlnum : Char → Bool) (nm : List Char)
    (hne : nm ≠ [])
    (hok : ∀ c ∈ nm, (isAlnum c || c = '-' || c = '_') = true)
    (hws : ∀ c ∈ nm, rustIsWhitespace c = false) :
    tagNew isAlnum nm = some nm := by
  simp only [tagNew]
  rw [rustTrim_eq_self nm hws,
    if_neg (by simpa using hne), if_pos (List.all_eq_true.mpr hok)]

theorem displayTagAux_no_ws (isAlnum : Char → Bool) (ta : TagAux)
    (hv : ValidTagAux isAlnum ta) :
    ∀ c ∈ displayTagAux ta, rustIsWhitespace c = false := by
  obtain ⟨_, _, hws⟩ := hv
  rcases ta with ⟨⟨⟨nm⟩⟩, vis⟩
  intro c hc
  cases vis
  case pub =>
    simp only [displayTagAux] at hc
    rcases List.mem_append.mp hc with hc | hc
    · simp at hc
      rcases hc with rfl | rfl | rfl
      all_goals rfl
    · rcases List.mem_cons.mp hc with rfl | hc2
      · rfl
      · exact hws c hc2
  case priv =>
    simp only [displayTagAux] at hc
    rcases List.mem_append.mp hc with hc | hc
    · simp at hc
      rcases hc with rfl | rfl | rfl | rfl
      all_goals rfl
    · rcases List.mem_cons.mp hc with rfl | hc2
      · rfl
      · exact hws c hc2

theorem comma_not_mem_display (isAlnum : Char → Bool)
    (hcomma : isAlnum ',' = false) (ta : TagAux)
    (hv : ValidTagAux isAlnum ta) : ',' ∉ displayTagAux ta := by
  obtain ⟨_, hok, _⟩ := hv
  rcases ta with ⟨⟨⟨nm⟩⟩, vis⟩
  intro hc
  cases vis <;>
  · simp only [displayTagAux] at hc
    rcases List.mem_append.mp hc with hc | hc
    · exact absurd hc (by decide)
    · rcases List.mem_cons.mp hc with hc | hc2
      · exact absurd hc (by decide)
      · have h2 := hok ',' hc2
        rw [hcomma] at h2
        simp at h2

theorem stripWs_eq_self (l : List Char)
    (h : ∀ c ∈ l, rustIsWhitespace c = false) : stripWs l = l := by
  rw [stripWs]
  apply List.filter_eq_self.mpr
  intro c hc
  simp [h c hc]

theorem parseFields_display_cons (isAlnum : Char → Bool) (ta : TagAux)
    (hv : ValidTagAux isAlnum ta) (fs : List (List Char))
    (acc : List TagAux) (opts : Options) :
    parseFields isAlnum (displayTagAux ta :: fs) acc opts =
      parseFields isAlnum fs (insertTagAux acc ta) opts := by
  obtain ⟨hne, hok, hws⟩ := hv
  rcases ta with ⟨⟨⟨nm⟩⟩, vis⟩
  have htn : tagNew isAlnum nm = some nm :=
    tagNew_of_valid isAlnum nm hne hok hws
  cases vis
  case priv =>
      have hd : displayTagAux ⟨⟨⟨nm⟩⟩, TagVisibility.priv⟩ =
          "priv".toList ++ ':' :: nm := rfl
      have hsp : splitOnceChar ':' ("priv".toList ++ ':' :: nm) =
          some ("priv".toList, nm) :=
        splitOnceChar_append_sep ':' "priv".toList nm (by decide)
      rw [parseFields, hd, if_neg (by simp), hsp]
      simp only []
      rw [if_neg (by decide), if_pos (by decide), htn]
  case pub =>
      have hd : displayTagAux ⟨⟨⟨nm⟩⟩, TagVisibility.pub⟩ =
          "pub".toList ++ ':' :: nm := rfl
      have hsp : splitOnceChar ':' ("pub".toList ++ ':' :: nm) =
          some ("pub".toList, nm) :=
        splitOnceChar_append_sep ':' "pub".toList nm (by decide)
      rw [parseFields, hd, if_neg (by simp), hsp]
      simp only []
      rw [if_pos (by decide), htn]

theorem parseFields_display (isAlnum : Char → Bool) :
    ∀ (l2 acc : List TagAux) (opts : Options),
      (∀ ta ∈ l2, ValidTagAux isAlnum ta) →
      parseFields isAlnum (l2.map displayTagAux) acc opts =
        some (l2.foldl insertTagAux acc, opts) := by
  intro l2
  induction l2 with
  | nil => intro acc opts _; rfl
  | cons ta l3 ih =>
      intro acc opts hv
      rw [List.map_cons,
        parseFields_display_cons isAlnum ta (hv ta (by simp)) _ acc opts,
        ih (insertTagAux acc ta) opts (fun x hx => hv x (by simp [hx])),
        List.foldl_cons]

theorem foldl_insertTagAux :
    ∀ (l2 acc : List TagAux), (acc ++ l2).Nodup →
      l2.foldl insertTagAux acc = acc ++ l2 := by
  intro l2
  induction l2 with
  | nil => intro acc _; simp
  | cons t l3 ih =>
      intro acc hnd
      have hni : t ∉ acc := by
        intro hm
        rcases List.nodup_append.mp hnd with ⟨_, _, hdisj⟩
        exact hdisj hm (by simp)
      rw [List.foldl_cons, insertTagAux, if_neg hni,
        ih (acc ++ [t]) (by simpa using hnd)]
      simp

/-- C8: for every share-id string accepted by `TagsAux::parse_share_id`, the
canonical form emitted by `create_session` (the parsed tags rendered as
`pub:name` / `priv:name` and joined with commas, in any iteration order of
the tag set) re-parses to exactly that tag set — same tags, any order,
no duplicates — but with `Options::default()`: the round trip preserves the
tags modulo set order while the option fields (`nostop`, `points`, `expire`,
`name`, `log`) are not re-emitted and therefore reset to their defaults.
The hypothesis `isAlnum ',' = false` records that the tag character filter
rejects the comma, as `char::is_alphanumeric` does. -/
theorem shareId_roundtrip_tags (isAlnum : Char → Bool)
    (hcomma : isAlnum ',' = false) (s g g2 : String)
    (tags : List TagAux) (opts : Options)
    (hparse : parseShareId isAlnum (some s) g = some (tags, opts))
    (l2 : List TagAux) (hperm : l2.Perm tags) :
    parseShareId isAlnum (some (canonicalShareId l2)) g2 =
      some (l2, Options.default) := by
  obtain ⟨hnd, hval⟩ := parseShareId_tags_inv isAlnum s g tags opts hparse
  have hnd2 : l2.Nodup := hperm.nodup_iff.mpr hnd
  have hval2 : ∀ ta ∈ l2, ValidTagAux isAlnum ta :=
    fun ta hta => hval ta (hperm.mem_iff.mp hta)
  cases l2 with
  | nil => rfl
  | cons ta l3 =>
      have hws : ∀ c ∈ joinSep ',' ((ta :: l3).map displayTagAux),
          rustIsWhitespace c = false := by
        intro c hc
        rcases mem_joinSep ',' _ c hc with rfl | ⟨f, hf, hcf⟩
        · rfl
        · rcases List.mem_map.mp hf with ⟨ta2, hta2, rfl⟩
          exact displayTagAux_no_ws isAlnum ta2 (hval2 ta2 hta2) c hcf
      have hnosep : ∀ f ∈ (ta :: l3).map displayTagAux, ',' ∉ f := by
        intro f hf
        rcases List.mem_map.mp hf with ⟨ta2, hta2, rfl⟩
        exact comma_not_mem_display isAlnum hcomma ta2 (hval2 ta2 hta2)
      rw [parseShareId, canonicalShareId]
      rw [show (String.mk (joinSep ',' ((ta :: l3).map displayTagAux))).data =
        joinSep ',' ((ta :: l3).map displayTagAux) from rfl]
      rw [stripWs_eq_self _ hws,
        splitOnChar_joinSep ',' _ (by simp) hnosep,
        parseFields_display isAlnum _ [] Options.default hval2,
        foldl_insertTagAux _ [] (by simpa using hnd2)]
      simp

/-- C8 witness: the round trip at a concrete accepted share id
`"pub:a,priv:b"`, re-emitted in the reversed set order. -/
theorem shareId_roundtrip_tags_witness :
    Char.isAlphanum ',' = false ∧
    parseShareId Char.isAlphanum (some "pub:a,priv:b") "x" =
      some ([⟨⟨"a"⟩, .pub⟩, ⟨⟨"b"⟩, .priv⟩], Options.default) ∧
    parseShareId Char.isAlphanum
      (some (canonicalShareId [⟨⟨"b"⟩, .priv⟩, ⟨⟨"a"⟩, .pub⟩])) "y" =
      some ([⟨⟨"b"⟩, .priv⟩, ⟨⟨"a"⟩, .pub⟩], Options.default) :=
  ⟨by decide, by decide,
   shareId_roundtrip_tags Char.isAlphanum (by decide) "pub:a,priv:b" "x" "y"
     [⟨⟨"a"⟩, .pub⟩, ⟨⟨"b"⟩, .priv⟩] Options.default (by decide)
     [⟨⟨"b"⟩, .priv⟩, ⟨⟨"a"⟩, .pub⟩] (by decide)⟩

/-- C8 counterexample to the full claim: the share id `"pub:a,nostop"` is
accepted with `no_stop` set, its canonical re-emission is just `"pub:a"`,
and re-parsing that yields default `Options` — the `(TagsAux, Options)`
pair is NOT preserved, only the tag set is. -/
theorem shareId_roundtrip_options_lost :
    parseShareId Char.isAlphanum (some "pub:a,nostop") "x" =
      some ([⟨⟨"a"⟩, .pub⟩], { Options.default with noStop := true }) ∧
    canonicalShareId [⟨⟨"a"⟩, .pub⟩] = "pub:a" ∧
    parseShareId Char.isAlphanum (some "pub:a") "x" =
      some ([⟨⟨"a"⟩, .pub⟩], Options.default) ∧
    ({ Options.default with noStop := true } ≠ Options.default) :=
  ⟨by decide, rfl, by decide, by decide⟩

end Ducktracker
